import Mathlib

/-!
Verification development for the coordinate-dependency graph engine of
`metadoc/core/containers.py` (the `Coordinates` class and the parts of
`Container` the claims touch).

The Python code is shallowly embedded:

* a coordinate declaration (a Python mapping from coordinate name to
  dependency spec) becomes an association list `Decl`;
* the destructive depth-first traversal `_validate_coords` becomes a
  fuel-indexed state-passing function (`findCoordDependencies`,
  `validateLoop`); Python's mutation of the caller's mapping via
  `coords.pop(coord)` is the explicit `coords` field of the threaded state;
* Python exceptions become an `Except` error type: `GraphIsCyclicError`,
  the `KeyError` a `pop`/lookup of a missing key raises, and a fuel marker
  that stands for non-termination (proved unreachable where needed);
* Python `set` values become `Finset String`.  The alias branch
  `base_deps[coord] = base_deps[deps]` shares a reference in Python; the
  embedding copies the value.  Reference sharing is observable only when a
  shared set is mutated later, which requires re-entering a coordinate
  while it is still being resolved; all theorems below either assume
  acyclicity (where no such re-entry happens), evaluate concrete inputs
  for which the two semantics coincide, or only concern which error is
  raised (set contents never steer control flow).
-/

/-- Dependency specification attached to one coordinate in a declaration:
`None` in Python (`base`), a single coordinate name (`single`), or an
iterable of names (`multi`). -/
inductive Dep where
  | base : Dep
  | single (d : String) : Dep
  | multi (ds : List String) : Dep
deriving Repr, DecidableEq

/-- Direct dependency names of a spec (empty for a base coordinate). -/
def Dep.children : Dep → List String
  | .base => []
  | .single d => [d]
  | .multi ds => ds

/-- A coordinate declaration: ordered mapping name → dependency spec. -/
abbrev Decl := List (String × Dep)

/-- Lookup in an association list (first entry with the given key),
mirroring Python dict lookup for duplicate-free key lists. -/
def lookupKey {α : Type} : List (String × α) → String → Option α
  | [], _ => none
  | p :: rest, k => if p.1 = k then some p.2 else lookupKey rest k

/-- Remove the first entry with the given key (Python `dict.pop` effect). -/
def eraseKey {α : Type} : List (String × α) → String → List (String × α)
  | [], _ => []
  | p :: rest, k => if p.1 = k then rest else p :: eraseKey rest k

/-- Python `dict.pop(k)`: value plus remaining mapping, `none` = `KeyError`. -/
def popKey {α : Type} (l : List (String × α)) (k : String) : Option (α × List (String × α)) :=
  match lookupKey l k with
  | none => none
  | some v => some (v, eraseKey l k)

/-- Python dict assignment `d[k] = v`: replace in place if the key exists,
otherwise append at the end (insertion order preserved). -/
def setKey {α : Type} : List (String × α) → String → α → List (String × α)
  | [], k, v => [(k, v)]
  | p :: rest, k, v => if p.1 = k then (k, v) :: rest else p :: setKey rest k v

/-- The keys of an association list, in order. -/
def keysList {α : Type} (l : List (String × α)) : List String := l.map Prod.fst

/-- Errors the validation can raise: `GraphIsCyclicError`, the `KeyError`
raised by `coords.pop` on an undeclared name, and a fuel marker standing
for non-termination of the embedded recursion (never reached when the
fuel is at least the number of remaining entries plus one). -/
inductive VErr where
  | graphIsCyclic : VErr
  | keyError : VErr
  | fuelExhausted : VErr
deriving Repr, DecidableEq

/-- The mutable state of `Coordinates._validate_coords` during traversal:
the not-yet-popped remainder of the caller's mapping and the four locals
`base_coords`, `dependencies`, `base_deps`, `visited`. -/
structure VState where
  coords : Decl
  baseCoords : List String
  dependencies : List (String × Option (Finset String))
  baseDeps : List (String × Finset String)
  visited : Finset String
deriving DecidableEq

deriving instance DecidableEq for Except

/-- Fuel bound for the embedded recursion: one unit per declaration entry
plus one per direct dependency listed.  The recursion depth of the Python
traversal is bounded by this quantity, so supplying `declWeight + 1` fuel
makes the fuel marker unreachable (proved below where needed). -/
def declWeight (l : Decl) : Nat := (l.map (fun p => p.2.children.length + 1)).sum

mutual

/-- `find_coord_dependencies(coord)` from `_validate_coords`, fuel-indexed.

```
if coord in visited:
  if coord not in dependencies: raise GraphIsCyclicError
  return
deps = coords.pop(coord)
if deps is None: ...          -- base coordinate
elif isinstance(deps, str): ...  -- alias
else: ...                     -- iterable of dependencies
``` -/
def findCoordDependencies : Nat → String → VState → Except VErr VState
  | 0, _, _ => .error .fuelExhausted
  | fuel + 1, coord, st =>
    if coord ∈ st.visited then
      if (lookupKey st.dependencies coord).isSome then .ok st
      else .error .graphIsCyclic
    else
      match popKey st.coords coord with
      | none => .error .keyError
      | some (deps, coords') =>
        match deps with
        | .base =>
          .ok { st with
            coords := coords'
            baseCoords := st.baseCoords ++ [coord]
            dependencies := setKey st.dependencies coord none
            baseDeps := setKey st.baseDeps coord {coord}
            visited := insert coord st.visited }
        | .single d =>
          match findCoordDependencies fuel d
              { st with coords := coords', visited := insert coord st.visited } with
          | .error e => .error e
          | .ok st2 =>
            match lookupKey st2.baseDeps d with
            | none => .error .keyError
            | some bd =>
              .ok { st2 with
                dependencies := setKey st2.dependencies coord (some {d})
                baseDeps := setKey st2.baseDeps coord bd }
        | .multi ds =>
          findDepList fuel coord ds
            { st with coords := coords'
                      dependencies := setKey st.dependencies coord (some ∅)
                      baseDeps := setKey st.baseDeps coord ∅
                      visited := insert coord st.visited }

/-- The `for ele in deps` loop of the multi-dependency branch:
recurse into each element, then `dependencies[coord].add(ele)` and
`base_deps[coord] |= base_deps[ele]`. -/
def findDepList : Nat → String → List String → VState → Except VErr VState
  | _, _, [], st => .ok st
  | 0, _, _ :: _, _ => .error .fuelExhausted
  | fuel + 1, coord, ele :: rest, st =>
    match findCoordDependencies fuel ele st with
    | .error e => .error e
    | .ok st2 =>
      match lookupKey st2.dependencies coord, lookupKey st2.baseDeps coord,
            lookupKey st2.baseDeps ele with
      | some (some dcur), some bcur, some bele =>
        findDepList fuel coord rest
          { st2 with
            dependencies := setKey st2.dependencies coord (some (insert ele dcur))
            baseDeps := setKey st2.baseDeps coord (bcur ∪ bele) }
      | _, _, _ => .error .keyError

end

/-- The driving loop `while len(coords) > 0: find_coord_dependencies(next(coords.iterkeys()))`,
fuel-indexed by the number of iterations still allowed. -/
def validateLoop : Nat → VState → Except VErr VState
  | 0, st => if st.coords.isEmpty then .ok st else .error .fuelExhausted
  | n + 1, st =>
    match st.coords with
    | [] => .ok st
    | (k, _) :: _ =>
      match findCoordDependencies (declWeight st.coords + 1) k st with
      | .error e => .error e
      | .ok st' => validateLoop n st'

/-- Run `_validate_coords` on a mapping input (the `hasattr(coords, 'iterkeys')`
branch), returning the final traversal state. -/
def validateCoordsRun (coords : Decl) : Except VErr VState :=
  validateLoop coords.length ⟨coords, [], [], [], ∅⟩

/-- The triple `_validate_coords` returns: `dependencies`,
`FrozenList(base_coords)`, `base_deps`. -/
structure ValidationResult where
  dependencies : List (String × Option (Finset String))
  baseCoords : List String
  baseDeps : List (String × Finset String)
deriving DecidableEq

/-- `Coordinates._validate_coords(coords)` for a mapping argument. -/
def validateCoordsMap (coords : Decl) : Except VErr ValidationResult :=
  match validateCoordsRun coords with
  | .error e => .error e
  | .ok st => .ok ⟨st.dependencies, st.baseCoords, st.baseDeps⟩

/-- Order-preserving duplicate removal keeping the first occurrence
(worker: `seen` lists the values already emitted). -/
def firstDedupAux {α : Type} [DecidableEq α] : List α → List α → List α
  | _, [] => []
  | seen, x :: xs =>
    if x ∈ seen then firstDedupAux seen xs
    else x :: firstDedupAux (x :: seen) xs

/-- Order-preserving duplicate removal keeping the first occurrence,
matching how `OrderedDict(zip(list(coords), ...))` deduplicates keys. -/
def firstDedup {α : Type} [DecidableEq α] (l : List α) : List α :=
  firstDedupAux [] l

/-- `Coordinates._validate_coords(coords)` for a non-mapping argument
(one without `iterkeys`, e.g. a list of index level names): every entry
becomes a base coordinate; no traversal, no cycle check, no error. -/
def validateCoordsList (names : List String) : ValidationResult :=
  let ks := firstDedup names
  ⟨ks.map (fun c => (c, none)), ks, ks.map (fun c => (c, ({c} : Finset String)))⟩

/-- The three fields a `Coordinates` object stores
(`_coords`, `_base_coords`, `_base_dependencies`). -/
structure CoordinatesObj where
  coordsMap : List (String × Option (Finset String))
  baseCoords : List String
  baseDependencies : List (String × Finset String)
deriving DecidableEq

/-- `Coordinates.__init__` / `__set__` for a mapping argument: store the
validated triple.  No base-set check happens here. -/
def Coordinates.init (coords : Decl) : Except VErr CoordinatesObj :=
  match validateCoordsMap coords with
  | .error e => .error e
  | .ok r => .ok ⟨r.dependencies, r.baseCoords, r.baseDeps⟩

/-- How a stored dependency value re-enters validation during `_update`:
`None` stays a base marker, a stored `set` is iterated like any
non-string iterable (so a previous alias re-validates as a
multi-dependency).  Python iterates the set in an implementation-defined
order; the embedding fixes the sorted order. -/
def depOfStored : Option (Finset String) → Dep
  | none => .base
  | some s => .multi (s.sort (· ≤ ·))

/-- `_coords = self._coords.copy(); _coords.update(coords)`:
the prior declaration map with the additions merged in, in order. -/
def mergeDecl (prior : List (String × Option (Finset String))) (additions : Decl) : Decl :=
  additions.foldl (fun acc p => setKey acc p.1 p.2)
    (prior.map (fun p => (p.1, depOfStored p.2)))

/-- Failures of `Coordinates._update`: a validation error, or the
`assert len(base_coords) > 0` (the spec's `EmptyBaseSet`). -/
inductive UpdateErr where
  | valErr (e : VErr) : UpdateErr
  | emptyBaseSet : UpdateErr
deriving Repr, DecidableEq

/-- `Coordinates._update(coords)`, statement by statement: merge, validate
(an exception here leaves the object untouched), assert a non-empty base
set (failure leaves the object untouched), and only then assign the three
fields. -/
def CoordinatesObj.update (self : CoordinatesObj) (coords : Decl) :
    CoordinatesObj × Option UpdateErr :=
  let merged := mergeDecl self.coordsMap coords
  match validateCoordsMap merged with
  | .error e => (self, some (.valErr e))
  | .ok r =>
    if r.baseCoords.length > 0 then
      (⟨r.dependencies, r.baseCoords, r.baseDeps⟩, none)
    else
      (self, some .emptyBaseSet)

/-!  Container-level definitions.  A container wraps an externally owned
tabular object; the embedding keeps only what the claims need: the index
level names (possibly unnamed, i.e. `none`), the index rows, the data
columns, and the metadata dictionaries.  Data values are strings (the
claims never compute with them). -/

/-- `Container.__init__` when `coords` is omitted:
`{'index_{}'.format(i) if coord is None else coord: None
  for i, coord in enumerate(self.index.names)}` —
every level becomes a base coordinate, unnamed levels get the synthetic
name `index_<position>`. -/
def Container.initCoords (indexNames : List (Option String)) : Decl :=
  indexNames.enum.map fun p => (p.2.getD ("index_" ++ toString p.1), Dep.base)

/-- Constructing the `Coordinates` member of a `Container` built without an
explicit `coords` argument. -/
def Container.initFromIndex (indexNames : List (Option String)) : Except VErr CoordinatesObj :=
  Coordinates.init (Container.initCoords indexNames)

/-- `Container.update_coords(None)` index-name inference (lines 205-215):
all levels named → use the names as given; a single unnamed level →
rename it `index`; all levels unnamed → rename level `i` to `level_<i>`.
Each branch then runs the non-mapping path of `_validate_coords` on the
resulting name list.  (A mixed partially-named multi-level index falls
through all three branches and is outside this model.) -/
def Container.updateCoordsInferredNames (indexNames : List (Option String)) :
    Option (List String) :=
  if indexNames.all Option.isSome then
    some (indexNames.map (fun n => n.getD ""))
  else if indexNames = [none] then
    some ["index"]
  else if indexNames.all Option.isNone then
    some (indexNames.enum.map (fun p => "level_" ++ toString p.1))
  else
    none

/-- The index/value part of a 2-D container (a `metadoc.DataFrame`): the
index is a multi-index whose levels are the declared coordinates; each
index row gives one value per level, aligned with `indexNames`. -/
structure DF where
  indexNames : List String
  indexRows : List (List String)
  columns : List String
  dataRows : List (List String)
deriving DecidableEq

/-- A labelled series: what `self.reset_index(…)[coord]` evaluates to —
values of one column, indexed by the remaining index levels. -/
structure SeriesModel where
  indexNames : List String
  indexRows : List (List String)
  values : List String
deriving DecidableEq

/-- `self.reset_index(toReset, drop=False, inplace=False)[coord]`:
move the levels in `toReset` out of the index and select column `coord`
(one of the moved levels): its values are that level's values, and the
remaining index levels are the ones not reset, in order. -/
def DF.resetIndexSelect (df : DF) (toReset : List String) (coord : String) : SeriesModel :=
  let keep := df.indexNames.enum.filter (fun p => p.2 ∉ toReset)
  { indexNames := keep.map Prod.snd
    indexRows := df.indexRows.map (fun row => keep.map (fun p => row.getD p.1 ""))
    values := df.indexRows.map (fun row => row.getD (df.indexNames.indexOf coord) "") }

/-- The derived-coordinate loop of `Container.to_xarray` for 2-D data
(lines 234-239): for every declared coordinate that is not a base
coordinate, reset every index level outside its base-dependency set and
select the coordinate's values. -/
def Container.derivedCoordArrays (obj : CoordinatesObj) (df : DF) :
    List (String × SeriesModel) :=
  (keysList obj.coordsMap).filterMap fun coord =>
    if coord ∈ obj.baseCoords then none
    else
      let toReset := (keysList obj.coordsMap).filter fun c =>
        match lookupKey obj.baseDependencies coord with
        | some bd => decide (c ∉ bd)
        | none => true
      some (coord, df.resetIndexSelect toReset coord)

/-- Modelled from the spec: the external array engine's
`xr.DataArray.from_series` (spec §6, "construction of a named-axis array
from a flat value sequence plus coordinate arrays") aligns a series on
the cartesian product of the distinct values of each of its index
levels; product points absent from the series index are missing values.
This counts them. -/
def SeriesModel.missingCount (s : SeriesModel) : Nat :=
  (List.range s.indexNames.length).foldl
    (fun acc i => acc * (firstDedup (s.indexRows.map (fun r => r.getD i ""))).length) 1
  - (firstDedup s.indexRows).length

/-- A labelled array as returned by the external engine: values, index,
and attached metadata.  Modelled from the spec (§6): the engine
"must preserve arbitrary metadata attached per array and per dataset",
so an array carries exactly the metadata handed to it — a freshly built
array carries none. -/
structure DataArrayModel where
  indexNames : List String
  indexRows : List (List String)
  values : List String
  attrs : List (String × String)
deriving DecidableEq

/-- The index/value part of a 1-D container (a `metadoc.Series`) together
with its `attrs` metadata. -/
structure Ser where
  indexNames : List String
  indexRows : List (List String)
  values : List String
  attrs : List (String × String)
deriving DecidableEq

/-- `Container.to_xarray` for 1-D data (lines 224-230): build a series of
`self.values` indexed by the base-coordinate levels of the index and hand
it to `from_series`.  The source passes no metadata anywhere in this
branch — `self.attrs` is never consulted — so the resulting array carries
none. -/
def Ser.toXarray (s : Ser) (obj : CoordinatesObj) : DataArrayModel :=
  { indexNames := obj.baseCoords
    indexRows := s.indexRows.map (fun row =>
      obj.baseCoords.map (fun c => row.getD (s.indexNames.indexOf c) ""))
    values := s.values
    attrs := [] }

/-- A labelled dataset as returned by `to_xarray` on 2-D data: the derived
coordinate arrays, one data array per column, and dataset-level
metadata. -/
structure DatasetModel where
  dsCoords : List (String × SeriesModel)
  dataVars : List (String × DataArrayModel)
  attrs : List (String × String)
deriving DecidableEq

/-- The data array `to_xarray` builds for the `i`-th data column of a 2-D
container: `xr.DataArray.from_series(base_df[col])` — value sequence and
base-coordinate index, no metadata handed over. -/
def DF.colArray (df : DF) (obj : CoordinatesObj) (i : Nat) : DataArrayModel :=
  { indexNames := obj.baseCoords
    indexRows := df.indexRows.map (fun row =>
      obj.baseCoords.map (fun c => row.getD (df.indexNames.indexOf c) ""))
    values := df.dataRows.map (fun row => row.getD i "")
    attrs := [] }

/-- `Container.to_xarray` for 2-D data (lines 232-251): derived coordinate
arrays, one array per data column built by `from_series` (so, per the
engine model, carrying no metadata — the container's `variables` mapping
is never consulted), and `attrs=self.attrs` on the dataset. -/
def DF.toXarray (df : DF) (obj : CoordinatesObj) (attrs : List (String × String))
    (vars : List (String × List (String × String))) : DatasetModel :=
  let _ := vars
  { dsCoords := Container.derivedCoordArrays obj df
    dataVars := df.columns.enum.map (fun p => (p.2, df.colArray obj p.1))
    attrs := attrs }

/-!  Well-formedness of a declaration, and the acyclicity hypothesis. -/

/-- Keys are pairwise distinct (any Python mapping satisfies this). -/
def keysNodup {α : Type} (l : List (String × α)) : Prop := (keysList l).Nodup

/-- Every dependency name mentioned anywhere is itself declared. -/
def declClosed (decl : Decl) : Prop :=
  ∀ p ∈ decl, ∀ d ∈ p.2.children, d ∈ keysList decl

/-- Acyclicity, stated as the existence of a rank function that strictly
decreases from a coordinate to each of its direct dependencies (for a
finite graph this is equivalent to the dependency graph having no
cycle). -/
def RankAcyclic (decl : Decl) : Prop :=
  ∃ r : String → Nat, ∀ p ∈ decl, ∀ d ∈ p.2.children, r d < r p.1

/-!  Invariants of the traversal state, relative to the original
declaration `decl` (Python: the dict passed to `_validate_coords` before
any `pop`). -/

/-- Everything that stays true of the traversal state throughout a run of
`_validate_coords` on a well-formed declaration. -/
structure StInv (decl : Decl) (st : VState) : Prop where
  /-- The un-popped remainder is a sub-association of the declaration. -/
  sub : List.Sublist st.coords decl
  /-- A declared name is either still un-popped or already visited. -/
  part : ∀ c, c ∈ keysList decl ↔ (c ∈ keysList st.coords ∨ c ∈ st.visited)
  /-- No un-popped name has been visited. -/
  disj : ∀ c ∈ keysList st.coords, c ∉ st.visited
  /-- `dependencies` and `base_deps` always carry the same keys. -/
  keysBD : ∀ c, (lookupKey st.dependencies c).isSome ↔ (lookupKey st.baseDeps c).isSome
  /-- Finalized coordinates have been visited. -/
  finVis : ∀ c, (lookupKey st.dependencies c).isSome → c ∈ st.visited
  /-- A finalized alias was finalized after its dependency (so it sits
  further right in the insertion-ordered `dependencies` dict). -/
  aliasOrd : ∀ c d, (c, Dep.single d) ∈ decl → (lookupKey st.dependencies c).isSome →
    (lookupKey st.dependencies d).isSome ∧
      List.indexOf d (keysList st.dependencies) < List.indexOf c (keysList st.dependencies)
  /-- `base_coords` only collects coordinates declared with a null spec. -/
  baseFromBase : ∀ c ∈ st.baseCoords, (c, Dep.base) ∈ decl
  /-- Members of `base_coords` are finalized. -/
  baseInDeps : ∀ c ∈ st.baseCoords, (lookupKey st.dependencies c).isSome
  /-- Every value stored in `base_deps` only contains base coordinates. -/
  bdVals : ∀ c s, lookupKey st.baseDeps c = some s → ∀ x ∈ s, x ∈ st.baseCoords
  /-- A visited coordinate declared with a null spec is in `base_coords`. -/
  baseVisited : ∀ c, (c, Dep.base) ∈ decl → c ∈ st.visited → c ∈ st.baseCoords

/-- Postcondition of a successful `find_coord_dependencies(c)` call. -/
structure Post (decl : Decl) (st st' : VState) (c : String) : Prop where
  inv : StInv decl st'
  sub : List.Sublist st'.coords st.coords
  visMono : ∀ x ∈ st.visited, x ∈ st'.visited
  leads : ∃ t, keysList st'.dependencies = keysList st.dependencies ++ t
  stableD : ∀ k ∈ st.visited, lookupKey st'.dependencies k = lookupKey st.dependencies k
  stableB : ∀ k ∈ st.visited, lookupKey st'.baseDeps k = lookupKey st.baseDeps k
  ip : ∀ k, (k ∈ st'.visited ∧ lookupKey st'.dependencies k = none) ↔
            (k ∈ st.visited ∧ lookupKey st.dependencies k = none)
  done : (lookupKey st'.dependencies c).isSome
  doneVis : c ∈ st'.visited
  popLen : c ∉ st.visited → st'.coords.length < st.coords.length
  baseLeads : ∃ t, st'.baseCoords = st.baseCoords ++ t

/-- Postcondition of a successful run of the multi-dependency `for` loop
for the coordinate `coord` (whose entry stays open while it runs). -/
structure PostL (decl : Decl) (st st' : VState) (coord : String) : Prop where
  inv : StInv decl st'
  sub : List.Sublist st'.coords st.coords
  visMono : ∀ x ∈ st.visited, x ∈ st'.visited
  leads : ∃ t, keysList st'.dependencies = keysList st.dependencies ++ t
  stableD : ∀ k ∈ st.visited, k ≠ coord →
    lookupKey st'.dependencies k = lookupKey st.dependencies k
  stableB : ∀ k ∈ st.visited, k ≠ coord →
    lookupKey st'.baseDeps k = lookupKey st.baseDeps k
  ip : ∀ k, (k ∈ st'.visited ∧ lookupKey st'.dependencies k = none) ↔
            (k ∈ st.visited ∧ lookupKey st.dependencies k = none)
  shape : ∃ D B, lookupKey st'.dependencies coord = some (some D) ∧
                 lookupKey st'.baseDeps coord = some B
  baseLeads : ∃ t, st'.baseCoords = st.baseCoords ++ t

/-- Every dependency spec in the declaration is non-null. -/
def allNonNull (decl : Decl) : Prop := ∀ p ∈ decl, p.2 ≠ Dep.base

instance (l : List (String × Dep)) : Decidable (keysNodup l) := by
  unfold keysNodup
  infer_instance

instance (decl : Decl) : Decidable (declClosed decl) := by
  unfold declClosed
  exact List.decidableBAll _ _

instance (decl : Decl) : Decidable (allNonNull decl) := by
  unfold allNonNull
  exact List.decidableBAll _ _

/-- The two facts preserved by the traversal on any declaration at all
(no well-formedness needed): the remainder stays a sub-association of the
declaration, and `base_coords` only collects null-spec coordinates. -/
def LInv (decl : Decl) (st : VState) : Prop :=
  List.Sublist st.coords decl ∧ (∀ c ∈ st.baseCoords, (c, Dep.base) ∈ decl)

/-- The declared direct dependencies of a coordinate. -/
def declChildren (decl : Decl) (k : String) : List String :=
  match lookupKey decl k with
  | some v => v.children
  | none => []

/-- The union `base_deps[coord] |= base_deps[ele]` accumulated over a
dependency list, as the multi-dependency loop computes it. -/
def unionBaseDeps (m : List (String × Finset String)) (ds : List String)
    (acc : Finset String) : Finset String :=
  ds.foldl (fun a e => a ∪ ((lookupKey m e).getD ∅)) acc

/-- A coordinate's entries are complete: they satisfy the local equation
the claim states, relative to the current dicts. -/
def CompleteAt (decl : Decl) (st : VState) (c : String) : Prop :=
  match lookupKey decl c with
  | some Dep.base =>
      lookupKey st.dependencies c = some none ∧
      lookupKey st.baseDeps c = some {c}
  | some (Dep.single d) =>
      lookupKey st.dependencies c = some (some {d}) ∧
      ∃ bdv, lookupKey st.baseDeps d = some bdv ∧
        lookupKey st.baseDeps c = some bdv
  | some (Dep.multi ds) =>
      (∃ D, lookupKey st.dependencies c = some (some D) ∧ ∀ x, x ∈ D ↔ x ∈ ds) ∧
      (∀ e ∈ ds, (lookupKey st.baseDeps e).isSome) ∧
      lookupKey st.baseDeps c = some (unionBaseDeps st.baseDeps ds ∅)
  | none => False

/-- Every finalized coordinate is either still open (a multi coordinate
whose loop is running, collected in `O`) or complete, with its children
finalized and outside `O`. -/
def AllDone (decl : Decl) (st : VState) (O : Finset String) : Prop :=
  ∀ k, (lookupKey st.dependencies k).isSome →
    k ∈ O ∨ (CompleteAt decl st k ∧
      ∀ d ∈ declChildren decl k, d ∉ O ∧ (lookupKey st.dependencies d).isSome)

/-- Concrete declaration exercising all three dependency forms. -/
def declC1 : Decl :=
  [("ind", Dep.base), ("region", Dep.single "ind"),
   ("pair", Dep.multi ["ind", "region"])]

/-- Rank function witnessing acyclicity of `declC1`. -/
def rankC1 : String → Nat :=
  fun c => if c = "pair" then 2 else if c = "region" then 1 else 0

/-!  Association-list helper lemmas. -/

@[simp] theorem keysList_nil {α : Type} : keysList ([] : List (String × α)) = [] := rfl

@[simp] theorem keysList_cons {α : Type} (p : String × α) (l : List (String × α)) :
    keysList (p :: l) = p.1 :: keysList l := rfl

theorem lookupKey_isSome_iff {α : Type} (l : List (String × α)) (k : String) :
    (lookupKey l k).isSome ↔ k ∈ keysList l := by
  induction l with
  | nil => simp [lookupKey]
  | cons p rest ih =>
    by_cases h : p.1 = k
    · simp [lookupKey, h]
    · have h' : k ≠ p.1 := fun he => h he.symm
      simp [lookupKey, h, ih, h']

theorem lookupKey_eq_none_iff {α : Type} (l : List (String × α)) (k : String) :
    lookupKey l k = none ↔ k ∉ keysList l := by
  rw [← lookupKey_isSome_iff]
  cases lookupKey l k <;> simp

theorem mem_keysList_of_mem {α : Type} {l : List (String × α)} {p : String × α}
    (h : p ∈ l) : p.1 ∈ keysList l := List.mem_map_of_mem Prod.fst h

theorem mem_of_lookupKey {α : Type} {l : List (String × α)} {k : String} {v : α}
    (h : lookupKey l k = some v) : (k, v) ∈ l := by
  induction l with
  | nil => simp [lookupKey] at h
  | cons p rest ih =>
    by_cases hp : p.1 = k
    · simp only [lookupKey, if_pos hp, Option.some.injEq] at h
      exact List.mem_cons.mpr (Or.inl (by rw [← hp, ← h]))
    · simp only [lookupKey, if_neg hp] at h
      exact List.mem_cons_of_mem _ (ih h)

theorem lookupKey_of_mem_nodup {α : Type} {l : List (String × α)} {k : String} {v : α}
    (hnd : keysNodup l) (h : (k, v) ∈ l) : lookupKey l k = some v := by
  induction l with
  | nil => simp at h
  | cons p rest ih =>
    rcases List.mem_cons.mp h with h | h
    · rw [← h]; simp [lookupKey]
    · have hk : k ∈ keysList rest := mem_keysList_of_mem h
      have hp : p.1 ≠ k := by
        intro he
        have hnm := (List.nodup_cons.mp hnd).1
        rw [he] at hnm
        exact hnm hk
      simp only [lookupKey, if_neg hp]
      exact ih (List.nodup_cons.mp hnd).2 h

theorem eraseKey_sublist {α : Type} (l : List (String × α)) (k : String) :
    List.Sublist (eraseKey l k) l := by
  induction l with
  | nil => simp [eraseKey]
  | cons p rest ih =>
    by_cases h : p.1 = k
    · simp only [eraseKey, if_pos h]
      exact List.sublist_cons_self p rest
    · simp only [eraseKey, if_neg h]
      exact List.Sublist.cons₂ p ih

theorem keysList_sublist {α : Type} {l₁ l₂ : List (String × α)}
    (h : List.Sublist l₁ l₂) : List.Sublist (keysList l₁) (keysList l₂) :=
  List.Sublist.map Prod.fst h

theorem mem_keysList_eraseKey {α : Type} {l : List (String × α)} {k x : String}
    (hx : x ≠ k) : x ∈ keysList (eraseKey l k) ↔ x ∈ keysList l := by
  induction l with
  | nil => simp [eraseKey]
  | cons p rest ih =>
    by_cases h : p.1 = k
    · subst h
      simp only [eraseKey, if_pos rfl, keysList_cons, List.mem_cons]
      exact ⟨fun hm => Or.inr hm, fun hm => hm.resolve_left hx⟩
    · simp [eraseKey, h, ih]

theorem not_mem_keysList_eraseKey {α : Type} {l : List (String × α)} {k : String}
    (hnd : keysNodup l) : k ∉ keysList (eraseKey l k) := by
  induction l with
  | nil => simp [eraseKey]
  | cons p rest ih =>
    by_cases h : p.1 = k
    · simp only [eraseKey, if_pos h]
      have hnm := (List.nodup_cons.mp hnd).1
      rw [h] at hnm
      exact hnm
    · simp only [eraseKey, if_neg h, keysList_cons, List.mem_cons]
      intro hm
      rcases hm with hm | hm
      · exact h hm.symm
      · exact ih (List.nodup_cons.mp hnd).2 hm

theorem length_eraseKey_of_mem {α : Type} {l : List (String × α)} {k : String}
    (h : k ∈ keysList l) : (eraseKey l k).length + 1 = l.length := by
  induction l with
  | nil => simp at h
  | cons p rest ih =>
    by_cases hp : p.1 = k
    · simp [eraseKey, hp]
    · have hr : k ∈ keysList rest := by
        rcases List.mem_cons.mp h with h' | h'
        · exact absurd h'.symm hp
        · exact h'
      simp only [eraseKey, if_neg hp, List.length_cons]
      rw [← ih hr]

theorem lookupKey_setKey_self {α : Type} (l : List (String × α)) (k : String) (v : α) :
    lookupKey (setKey l k v) k = some v := by
  induction l with
  | nil => simp [setKey, lookupKey]
  | cons p rest ih =>
    by_cases h : p.1 = k <;> simp [setKey, h, lookupKey, ih]

theorem lookupKey_setKey_ne {α : Type} (l : List (String × α)) (k k' : String) (v : α)
    (h : k' ≠ k) : lookupKey (setKey l k v) k' = lookupKey l k' := by
  induction l with
  | nil =>
    have h' : ¬ (k = k') := fun he => h he.symm
    simp [setKey, lookupKey, h']
  | cons p rest ih =>
    by_cases hp : p.1 = k
    · have h' : ¬ (k = k') := fun he => h he.symm
      have hp'' : ¬ (p.1 = k') := by rw [hp]; exact h'
      simp only [setKey, if_pos hp, lookupKey, if_neg h', if_neg hp'']
    · by_cases hp' : p.1 = k'
      · simp only [setKey, if_neg hp, lookupKey, if_pos hp']
      · simp only [setKey, if_neg hp, lookupKey, if_neg hp']
        exact ih

theorem keysList_setKey_mem {α : Type} {l : List (String × α)} {k : String} (v : α)
    (h : k ∈ keysList l) : keysList (setKey l k v) = keysList l := by
  induction l with
  | nil => simp at h
  | cons p rest ih =>
    by_cases hp : p.1 = k
    · simp only [setKey, if_pos hp, keysList_cons]
      rw [hp]
    · have hr : k ∈ keysList rest := by
        rcases List.mem_cons.mp h with h' | h'
        · exact absurd h'.symm hp
        · exact h'
      simp only [setKey, if_neg hp, keysList_cons]
      rw [ih hr]

theorem keysList_setKey_new {α : Type} {l : List (String × α)} {k : String} (v : α)
    (h : k ∉ keysList l) : keysList (setKey l k v) = keysList l ++ [k] := by
  induction l with
  | nil => simp [setKey]
  | cons p rest ih =>
    have hp : p.1 ≠ k := by
      intro he
      exact h (by simp [he])
    have hr : k ∉ keysList rest := by
      intro hm
      exact h (by simp [hm])
    simp only [setKey, if_neg hp, keysList_cons, List.cons_append]
    rw [ih hr]

theorem lookupKey_isSome_setKey {α : Type} (l : List (String × α)) (k k' : String) (v : α)
    (h : (lookupKey l k').isSome) : (lookupKey (setKey l k v) k').isSome := by
  by_cases he : k' = k
  · subst he; rw [lookupKey_setKey_self]; rfl
  · rw [lookupKey_setKey_ne _ _ _ _ he]; exact h

theorem declWeight_eraseKey {l : Decl} {k : String} {v : Dep}
    (h : lookupKey l k = some v) :
    declWeight l = declWeight (eraseKey l k) + (v.children.length + 1) := by
  induction l with
  | nil => simp [lookupKey] at h
  | cons p rest ih =>
    by_cases hp : p.1 = k
    · simp only [lookupKey, if_pos hp, Option.some.injEq] at h
      simp [eraseKey, hp, declWeight, h, Nat.add_comm]
    · simp only [lookupKey, if_neg hp] at h
      simp only [eraseKey, if_neg hp, declWeight, List.map_cons, List.sum_cons]
      have := ih h
      simp only [declWeight] at this
      omega

theorem declWeight_mono {l₁ l₂ : Decl} (h : List.Sublist l₁ l₂) :
    declWeight l₁ ≤ declWeight l₂ := by
  induction h with
  | slnil => simp [declWeight]
  | cons p _ ih =>
    simp only [declWeight, List.map_cons, List.sum_cons] at *
    omega
  | cons₂ p _ ih =>
    simp only [declWeight, List.map_cons, List.sum_cons] at *
    omega

theorem decl_value_unique {decl : Decl} (hnd : keysNodup decl) {c : String} {v w : Dep}
    (hv : (c, v) ∈ decl) (hw : (c, w) ∈ decl) : v = w := by
  have h1 := lookupKey_of_mem_nodup hnd hv
  have h2 := lookupKey_of_mem_nodup hnd hw
  rw [h1] at h2
  exact Option.some_injective _ h2


theorem stInv_initial (decl : Decl) : StInv decl ⟨decl, [], [], [], ∅⟩ where
  sub := List.Sublist.refl decl
  part := by intro c; simp
  disj := by intro c _; simp
  keysBD := by intro c; simp [lookupKey]
  finVis := by intro c h; simp [lookupKey] at h
  aliasOrd := by intro c d _ h; simp [lookupKey] at h
  baseFromBase := by intro c h; simp at h
  baseInDeps := by intro c h; simp at h
  bdVals := by intro c s h; simp [lookupKey] at h
  baseVisited := by intro c _ h; simp at h

theorem popKey_eq {α : Type} {l : List (String × α)} {k : String} {v : α}
    {l' : List (String × α)} (h : popKey l k = some (v, l')) :
    lookupKey l k = some v ∧ l' = eraseKey l k := by
  unfold popKey at h
  cases he : lookupKey l k with
  | none => rw [he] at h; simp at h
  | some w =>
    rw [he] at h
    simp at h
    exact ⟨by rw [h.1], h.2.symm⟩

/-- Facts available after a successful pop of an unvisited coordinate. -/
theorem pop_facts {decl : Decl} {st : VState} (inv : StInv decl st)
    {c : String} {v : Dep} {coords' : Decl}
    (hpop : popKey st.coords c = some (v, coords')) :
    (c, v) ∈ decl ∧ c ∈ keysList st.coords ∧ coords' = eraseKey st.coords c ∧
      coords'.length + 1 = st.coords.length ∧
      declWeight st.coords = declWeight coords' + (v.children.length + 1) := by
  obtain ⟨hlk, he⟩ := popKey_eq hpop
  have hmem : (c, v) ∈ st.coords := mem_of_lookupKey hlk
  have hkey : c ∈ keysList st.coords := mem_keysList_of_mem hmem
  refine ⟨List.Sublist.subset inv.sub hmem, hkey, he, ?_, ?_⟩
  · rw [he]; exact length_eraseKey_of_mem hkey
  · rw [he]; exact declWeight_eraseKey hlk

/-- The keys of the un-popped remainder are distinct. -/
theorem coords_keysNodup {decl : Decl} {st : VState} (hnd : keysNodup decl)
    (inv : StInv decl st) : keysNodup st.coords :=
  List.Nodup.sublist (keysList_sublist inv.sub) hnd

/-- Partition and disjointness after popping `c` and marking it visited. -/
theorem part_pop {decl : Decl} {st : VState} (hnd : keysNodup decl) (inv : StInv decl st)
    {c : String} (hc : c ∈ keysList st.coords) :
    (∀ x, x ∈ keysList decl ↔
        (x ∈ keysList (eraseKey st.coords c) ∨ x ∈ insert c st.visited)) ∧
      (∀ x ∈ keysList (eraseKey st.coords c), x ∉ insert c st.visited) := by
  constructor
  · intro x
    by_cases hx : x = c
    · simp only [Finset.mem_insert]
      constructor
      · intro _
        exact Or.inr (Or.inl hx)
      · intro _
        exact (inv.part x).mpr (Or.inl (by rw [hx]; exact hc))
    · rw [mem_keysList_eraseKey hx]
      simp only [Finset.mem_insert]
      rw [inv.part x]
      constructor
      · rintro (h | h)
        · exact Or.inl h
        · exact Or.inr (Or.inr h)
      · rintro (h | h | h)
        · exact Or.inl h
        · exact absurd h hx
        · exact Or.inr h
  · intro x hx
    have hnx : x ≠ c := by
      intro he
      subst he
      exact not_mem_keysList_eraseKey (coords_keysNodup hnd inv) hx
    simp only [Finset.mem_insert]
    rintro (h | h)
    · exact hnx h
    · exact inv.disj x ((mem_keysList_eraseKey hnx).mp hx) h

/-- The base-coordinate branch: full postcondition. -/
theorem post_base {decl : Decl} {st : VState} (hnd : keysNodup decl)
    (inv : StInv decl st) {c : String} {coords' : Decl}
    (hpop : popKey st.coords c = some (Dep.base, coords'))
    (hnv : c ∉ st.visited) :
    Post decl st
      { st with coords := coords'
                baseCoords := st.baseCoords ++ [c]
                dependencies := setKey st.dependencies c none
                baseDeps := setKey st.baseDeps c {c}
                visited := insert c st.visited } c := by
  obtain ⟨hdecl, hkey, he, hlen, _⟩ := pop_facts inv hpop
  subst he
  have hnotfin : lookupKey st.dependencies c = none := by
    cases hf : lookupKey st.dependencies c with
    | none => rfl
    | some w => exact absurd (inv.finVis c (by rw [hf]; rfl)) hnv
  have hnotkey : c ∉ keysList st.dependencies :=
    (lookupKey_eq_none_iff _ _).mp hnotfin
  have hnotbd : lookupKey st.baseDeps c = none := by
    cases hf : lookupKey st.baseDeps c with
    | none => rfl
    | some w =>
      have : (lookupKey st.dependencies c).isSome :=
        (inv.keysBD c).mpr (by rw [hf]; rfl)
      rw [hnotfin] at this
      simp at this
  have hkeys' : keysList (setKey st.dependencies c (none : Option (Finset String)))
      = keysList st.dependencies ++ [c] := keysList_setKey_new _ hnotkey
  obtain ⟨hpart, hdisj⟩ := part_pop hnd inv hkey
  refine ⟨?_, ?_, ?_, ?_, ?_, ?_, ?_, ?_, ?_, ?_, ?_⟩
  · -- StInv
    refine ⟨?_, ?_, ?_, ?_, ?_, ?_, ?_, ?_, ?_, ?_⟩
    · exact List.Sublist.trans (eraseKey_sublist _ _) inv.sub
    · exact hpart
    · exact hdisj
    · intro k
      by_cases hk : k = c
      · subst hk
        simp [lookupKey_setKey_self]
      · simp only [lookupKey_setKey_ne _ _ _ _ hk]
        exact inv.keysBD k
    · intro k h
      by_cases hk : k = c
      · subst hk; exact Finset.mem_insert_self _ _
      · rw [lookupKey_setKey_ne _ _ _ _ hk] at h
        exact Finset.mem_insert_of_mem (inv.finVis k h)
    · intro c' d hdecl' hsome'
      by_cases hc' : c' = c
      · subst hc'
        exact absurd (decl_value_unique hnd hdecl' hdecl) (by simp)
      · rw [lookupKey_setKey_ne _ _ _ _ hc'] at hsome'
        obtain ⟨hd, hlt⟩ := inv.aliasOrd c' d hdecl' hsome'
        have hdc : d ≠ c := by
          intro hdc
          subst hdc
          rw [hnotfin] at hd
          simp at hd
        constructor
        · rw [lookupKey_setKey_ne _ _ _ _ hdc]; exact hd
        · rw [hkeys',
            List.indexOf_append_of_mem ((lookupKey_isSome_iff _ _).mp hd),
            List.indexOf_append_of_mem ((lookupKey_isSome_iff _ _).mp hsome')]
          exact hlt
    · intro x hx
      rcases List.mem_append.mp hx with hx | hx
      · exact inv.baseFromBase x hx
      · rw [List.mem_singleton.mp hx]; exact hdecl
    · intro x hx
      rcases List.mem_append.mp hx with hx | hx
      · exact lookupKey_isSome_setKey _ _ _ _ (inv.baseInDeps x hx)
      · rw [List.mem_singleton.mp hx, lookupKey_setKey_self]; rfl
    · intro k s hs x hxs
      by_cases hk : k = c
      · rw [hk, lookupKey_setKey_self] at hs
        have hsx : ({c} : Finset String) = s := Option.some_injective _ hs
        rw [← hsx] at hxs
        rw [Finset.mem_singleton.mp hxs]
        exact List.mem_append.mpr (Or.inr (by simp))
      · rw [lookupKey_setKey_ne _ _ _ _ hk] at hs
        exact List.mem_append.mpr (Or.inl (inv.bdVals k s hs x hxs))
    · intro x hxb hxv
      rcases Finset.mem_insert.mp hxv with hx | hx
      · subst hx; exact List.mem_append.mpr (Or.inr (by simp))
      · exact List.mem_append.mpr (Or.inl (inv.baseVisited x hxb hx))
  · exact eraseKey_sublist _ _
  · intro x hx; exact Finset.mem_insert_of_mem hx
  · exact ⟨[c], hkeys'⟩
  · intro k hk
    have hkc : k ≠ c := fun he => hnv (he ▸ hk)
    exact lookupKey_setKey_ne _ _ _ _ hkc
  · intro k hk
    have hkc : k ≠ c := fun he => hnv (he ▸ hk)
    exact lookupKey_setKey_ne _ _ _ _ hkc
  · intro k
    by_cases hk : k = c
    · subst hk
      simp [lookupKey_setKey_self, hnv]
    · simp only [Finset.mem_insert, lookupKey_setKey_ne _ _ _ _ hk]
      constructor
      · rintro ⟨hv, hn⟩
        exact ⟨hv.resolve_left hk, hn⟩
      · rintro ⟨hv, hn⟩
        exact ⟨Or.inr hv, hn⟩
  · rw [lookupKey_setKey_self]; rfl
  · exact Finset.mem_insert_self _ _
  · intro _
    show (eraseKey st.coords c).length < st.coords.length
    omega
  · exact ⟨[c], rfl⟩

/-- Popping an unvisited non-base coordinate and marking it visited
(the state `st1` built by the alias and multi branches before their
recursion). -/
theorem stInv_popVisit {decl : Decl} {st : VState} (hnd : keysNodup decl)
    (inv : StInv decl st) {c : String} {v : Dep} {coords' : Decl}
    (hpop : popKey st.coords c = some (v, coords'))
    (hnb : (c, Dep.base) ∉ decl) :
    StInv decl { st with coords := coords', visited := insert c st.visited } := by
  obtain ⟨_, hkey, he, _, _⟩ := pop_facts inv hpop
  subst he
  obtain ⟨hpart, hdisj⟩ := part_pop hnd inv hkey
  refine ⟨?_, hpart, hdisj, inv.keysBD, ?_, inv.aliasOrd, inv.baseFromBase,
    inv.baseInDeps, inv.bdVals, ?_⟩
  · exact List.Sublist.trans (eraseKey_sublist _ _) inv.sub
  · intro k h
    exact Finset.mem_insert_of_mem (inv.finVis k h)
  · intro x hxb hxv
    rcases Finset.mem_insert.mp hxv with hx | hx
    · rw [hx] at hxb; exact absurd hxb hnb
    · exact inv.baseVisited x hxb hx

/-- Registering a fresh entry for a visited, not-yet-finalized coordinate
on both dicts (pre-registration of a multi coordinate, or finalization of
an alias). -/
theorem stInv_setKeyFresh {decl : Decl} {st : VState}
    (inv : StInv decl st) {c : String}
    (hvis : c ∈ st.visited) (hnone : lookupKey st.dependencies c = none)
    {vD : Option (Finset String)} {vB : Finset String}
    (hvB : ∀ x ∈ vB, x ∈ st.baseCoords)
    (haNew : ∀ d, (c, Dep.single d) ∈ decl → (lookupKey st.dependencies d).isSome)
    (hnb : (c, Dep.base) ∈ decl → c ∈ st.baseCoords) :
    StInv decl { st with dependencies := setKey st.dependencies c vD
                         baseDeps := setKey st.baseDeps c vB } := by
  have hnotkey : c ∉ keysList st.dependencies := (lookupKey_eq_none_iff _ _).mp hnone
  have hkeys' : keysList (setKey st.dependencies c vD)
      = keysList st.dependencies ++ [c] := keysList_setKey_new _ hnotkey
  refine ⟨inv.sub, inv.part, inv.disj, ?_, ?_, ?_, inv.baseFromBase, ?_, ?_, ?_⟩
  · intro k
    by_cases hk : k = c
    · rw [hk]
      simp [lookupKey_setKey_self]
    · simp only [lookupKey_setKey_ne _ _ _ _ hk]
      exact inv.keysBD k
  · intro k h
    by_cases hk : k = c
    · rw [hk]; exact hvis
    · rw [lookupKey_setKey_ne _ _ _ _ hk] at h
      exact inv.finVis k h
  · intro c' d hdecl' hsome'
    by_cases hc' : c' = c
    · rw [hc'] at hdecl' hsome' ⊢
      have hd := haNew d hdecl'
      have hdc : d ≠ c := by
        intro hdc
        rw [hdc, hnone] at hd
        simp at hd
      have hdmem : d ∈ keysList st.dependencies := (lookupKey_isSome_iff _ _).mp hd
      constructor
      · rw [lookupKey_setKey_ne _ _ _ _ hdc]; exact hd
      · rw [hkeys', List.indexOf_append_of_mem hdmem,
          List.indexOf_append_of_not_mem hnotkey]
        calc List.indexOf d (keysList st.dependencies)
            < (keysList st.dependencies).length := List.indexOf_lt_length.mpr hdmem
          _ ≤ (keysList st.dependencies).length + List.indexOf c [c] := Nat.le_add_right _ _
    · rw [lookupKey_setKey_ne _ _ _ _ hc'] at hsome'
      obtain ⟨hd, hlt⟩ := inv.aliasOrd c' d hdecl' hsome'
      have hdc : d ≠ c := by
        intro hdc
        rw [hdc, hnone] at hd
        simp at hd
      constructor
      · rw [lookupKey_setKey_ne _ _ _ _ hdc]; exact hd
      · rw [hkeys',
          List.indexOf_append_of_mem ((lookupKey_isSome_iff _ _).mp hd),
          List.indexOf_append_of_mem ((lookupKey_isSome_iff _ _).mp hsome')]
        exact hlt
  · intro x hx
    exact lookupKey_isSome_setKey _ _ _ _ (inv.baseInDeps x hx)
  · intro k s hs x hxs
    by_cases hk : k = c
    · rw [hk, lookupKey_setKey_self] at hs
      have hsx : vB = s := Option.some_injective _ hs
      rw [← hsx] at hxs
      exact hvB x hxs
    · rw [lookupKey_setKey_ne _ _ _ _ hk] at hs
      exact inv.bdVals k s hs x hxs
  · intro x hxb hxv
    by_cases hx : x = c
    · rw [hx] at hxb ⊢; exact hnb hxb
    · exact inv.baseVisited x hxb hxv

/-- Overwriting the values of an already-finalized coordinate on both
dicts (one step of the multi-dependency `for` loop). -/
theorem stInv_setKeyExisting {decl : Decl} {st : VState}
    (inv : StInv decl st) {coord : String}
    (hsome : (lookupKey st.dependencies coord).isSome)
    {vD : Option (Finset String)} {vB : Finset String}
    (hvB : ∀ x ∈ vB, x ∈ st.baseCoords) :
    StInv decl { st with dependencies := setKey st.dependencies coord vD
                         baseDeps := setKey st.baseDeps coord vB } := by
  have hmem : coord ∈ keysList st.dependencies := (lookupKey_isSome_iff _ _).mp hsome
  have hkeys' : keysList (setKey st.dependencies coord vD)
      = keysList st.dependencies := keysList_setKey_mem _ hmem
  have hisome : ∀ k, (lookupKey (setKey st.dependencies coord vD) k).isSome ↔
      (lookupKey st.dependencies k).isSome := by
    intro k
    by_cases hk : k = coord
    · rw [hk, lookupKey_setKey_self]
      simp [hsome]
    · rw [lookupKey_setKey_ne _ _ _ _ hk]
  refine ⟨inv.sub, inv.part, inv.disj, ?_, ?_, ?_, inv.baseFromBase, ?_, ?_,
    inv.baseVisited⟩
  · intro k
    by_cases hk : k = coord
    · rw [hk]
      simp [lookupKey_setKey_self]
    · simp only [lookupKey_setKey_ne _ _ _ _ hk]
      exact inv.keysBD k
  · intro k h
    exact inv.finVis k ((hisome k).mp h)
  · intro c' d hdecl' hsome'
    obtain ⟨hd, hlt⟩ := inv.aliasOrd c' d hdecl' ((hisome c').mp hsome')
    refine ⟨(hisome d).mpr hd, ?_⟩
    rw [hkeys']
    exact hlt
  · intro x hx
    exact lookupKey_isSome_setKey _ _ _ _ (inv.baseInDeps x hx)
  · intro k s hs x hxs
    by_cases hk : k = coord
    · rw [hk, lookupKey_setKey_self] at hs
      have hsx : vB = s := Option.some_injective _ hs
      rw [← hsx] at hxs
      exact hvB x hxs
    · rw [lookupKey_setKey_ne _ _ _ _ hk] at hs
      exact inv.bdVals k s hs x hxs

/-- The main run lemma: on a well-formed declaration, a call of
`find_coord_dependencies` with enough fuel either succeeds with the full
postcondition or raises `GraphIsCyclicError` — never a `KeyError`, and
never fuel exhaustion; likewise for the multi-dependency loop. -/
theorem validate_G (decl : Decl) (hnd : keysNodup decl) (hcl : declClosed decl) :
    ∀ fuel : Nat,
      (∀ c st, StInv decl st → declWeight st.coords + 1 ≤ fuel → c ∈ keysList decl →
        (∃ st', findCoordDependencies fuel c st = .ok st' ∧ Post decl st st' c) ∨
        findCoordDependencies fuel c st = .error .graphIsCyclic) ∧
      (∀ coord elems st, StInv decl st →
        declWeight st.coords + elems.length + 1 ≤ fuel →
        (∀ e ∈ elems, e ∈ keysList decl) → coord ∈ st.visited →
        (∃ D, lookupKey st.dependencies coord = some (some D)) →
        (∃ B, lookupKey st.baseDeps coord = some B) →
        (∃ st', findDepList fuel coord elems st = .ok st' ∧ PostL decl st st' coord) ∨
        findDepList fuel coord elems st = .error .graphIsCyclic) := by
  intro fuel
  induction fuel with
  | zero =>
    constructor
    · intro c st _ hfuel _
      omega
    · intro coord elems st _ hfuel _ _ _ _
      omega
  | succ fuel ih =>
    constructor
    · -- findCoordDependencies (fuel+1)
      intro c st inv hfuel hckey
      by_cases hv : c ∈ st.visited
      · by_cases hf : (lookupKey st.dependencies c).isSome = true
        · left
          refine ⟨st, ?_, ?_⟩
          · simp only [findCoordDependencies, if_pos hv, if_pos hf]
          · exact ⟨inv, List.Sublist.refl _, fun x hx => hx, ⟨[], by simp⟩,
              fun k _ => rfl, fun k _ => rfl, fun k => Iff.rfl, hf, hv,
              fun hc => absurd hv hc, ⟨[], by simp⟩⟩
        · right
          simp only [findCoordDependencies, if_pos hv, if_neg hf]
      · -- c not yet visited: pop it
        have hckeys : c ∈ keysList st.coords := by
          rcases (inv.part c).mp hckey with h | h
          · exact h
          · exact absurd h hv
        obtain ⟨v, hlk⟩ := Option.isSome_iff_exists.mp
          ((lookupKey_isSome_iff st.coords c).mpr hckeys)
        have hpop : popKey st.coords c = some (v, eraseKey st.coords c) := by
          unfold popKey
          rw [hlk]
        obtain ⟨hdecl, hkeym, _, hlen, hwt⟩ := pop_facts inv hpop
        cases v with
        | base =>
          left
          refine ⟨_, ?_, post_base hnd inv hpop hv⟩
          simp only [findCoordDependencies, if_neg hv, hpop]
        | single d =>
          have hnb : (c, Dep.base) ∉ decl := by
            intro hb
            have hcontra := decl_value_unique hnd hb hdecl
            simp at hcontra
          have inv1 : StInv decl
              { st with coords := eraseKey st.coords c,
                        visited := insert c st.visited } :=
            stInv_popVisit hnd inv hpop hnb
          have hdkey : d ∈ keysList decl :=
            hcl (c, Dep.single d) hdecl d (by simp [Dep.children])
          have hfuel1 : declWeight (eraseKey st.coords c) + 1 ≤ fuel := by
            simp [Dep.children] at hwt
            omega
          rcases (ih.1 d _ inv1 hfuel1 hdkey) with ⟨st2, hrec, post⟩ | herr
          · -- recursion succeeded; finalize the alias
            have hcv2 : c ∈ st2.visited :=
              post.visMono c (Finset.mem_insert_self _ _)
            have hnone2 : lookupKey st2.dependencies c = none := by
              have hnone1 : lookupKey st.dependencies c = none := by
                cases hx : lookupKey st.dependencies c with
                | none => rfl
                | some w => exact absurd (inv.finVis c (by rw [hx]; rfl)) hv
              exact ((post.ip c).mpr ⟨Finset.mem_insert_self _ _, hnone1⟩).2
            obtain ⟨bdv, hbdv⟩ := Option.isSome_iff_exists.mp
              ((post.inv.keysBD d).mp post.done)
            left
            refine ⟨{ st2 with
                dependencies := setKey st2.dependencies c (some {d}),
                baseDeps := setKey st2.baseDeps c bdv }, ?_, ?_⟩
            · simp only [findCoordDependencies, if_neg hv, hpop, hrec, hbdv]
            · have hnone1 : lookupKey st.dependencies c = none := by
                cases hx : lookupKey st.dependencies c with
                | none => rfl
                | some w => exact absurd (inv.finVis c (by rw [hx]; rfl)) hv
              have hinv3 : StInv decl
                  { st2 with
                    dependencies := setKey st2.dependencies c (some {d}),
                    baseDeps := setKey st2.baseDeps c bdv } := by
                refine stInv_setKeyFresh post.inv hcv2 hnone2 ?_ ?_ ?_
                · intro x hx
                  exact post.inv.bdVals d bdv hbdv x hx
                · intro d' hd'
                  have : Dep.single d' = Dep.single d :=
                    decl_value_unique hnd hd' hdecl
                  simp at this
                  rw [this]
                  exact post.done
                · intro hb
                  exact absurd hb hnb
              have hnotkey2 : c ∉ keysList st2.dependencies :=
                (lookupKey_eq_none_iff _ _).mp hnone2
              refine ⟨hinv3, ?_, ?_, ?_, ?_, ?_, ?_, ?_, ?_, ?_, ?_⟩
              · exact List.Sublist.trans post.sub (eraseKey_sublist _ _)
              · intro x hx
                exact post.visMono x (Finset.mem_insert_of_mem hx)
              · obtain ⟨t, ht⟩ := post.leads
                refine ⟨t ++ [c], ?_⟩
                show keysList (setKey st2.dependencies c (some {d}))
                    = keysList st.dependencies ++ (t ++ [c])
                rw [keysList_setKey_new _ hnotkey2, ht, List.append_assoc]
              · intro k hk
                have hkc : k ≠ c := fun he => hv (he ▸ hk)
                show lookupKey (setKey st2.dependencies c (some {d})) k
                    = lookupKey st.dependencies k
                rw [lookupKey_setKey_ne _ _ _ _ hkc]
                exact post.stableD k (Finset.mem_insert_of_mem hk)
              · intro k hk
                have hkc : k ≠ c := fun he => hv (he ▸ hk)
                show lookupKey (setKey st2.baseDeps c bdv) k
                    = lookupKey st.baseDeps k
                rw [lookupKey_setKey_ne _ _ _ _ hkc]
                exact post.stableB k (Finset.mem_insert_of_mem hk)
              · intro k
                by_cases hk : k = c
                · subst hk
                  constructor
                  · rintro ⟨_, hn⟩
                    rw [lookupKey_setKey_self] at hn
                    simp at hn
                  · rintro ⟨hkv, _⟩
                    exact absurd hkv hv
                · show (k ∈ st2.visited ∧
                      lookupKey (setKey st2.dependencies c (some {d})) k = none) ↔ _
                  rw [lookupKey_setKey_ne _ _ _ _ hk]
                  refine Iff.trans (post.ip k) ?_
                  constructor
                  · rintro ⟨hkv, hn⟩
                    exact ⟨(Finset.mem_insert.mp hkv).resolve_left hk, hn⟩
                  · rintro ⟨hkv, hn⟩
                    exact ⟨Finset.mem_insert_of_mem hkv, hn⟩
              · show (lookupKey (setKey st2.dependencies c (some {d})) c).isSome
                rw [lookupKey_setKey_self]
                rfl
              · exact hcv2
              · intro _
                have h1 : st2.coords.length ≤ (eraseKey st.coords c).length :=
                  List.Sublist.length_le post.sub
                show st2.coords.length < st.coords.length
                omega
              · obtain ⟨t, ht⟩ := post.baseLeads
                exact ⟨t, ht⟩
          · right
            simp only [findCoordDependencies, if_neg hv, hpop, herr]
        | multi ds =>
          have hnb : (c, Dep.base) ∉ decl := by
            intro hb
            have hcontra := decl_value_unique hnd hb hdecl
            simp at hcontra
          have hnone1 : lookupKey st.dependencies c = none := by
            cases hx : lookupKey st.dependencies c with
            | none => rfl
            | some w => exact absurd (inv.finVis c (by rw [hx]; rfl)) hv
          have inv1 : StInv decl
              { st with coords := eraseKey st.coords c,
                        visited := insert c st.visited } :=
            stInv_popVisit hnd inv hpop hnb
          have inv2 : StInv decl
              { st with coords := eraseKey st.coords c,
                        dependencies := setKey st.dependencies c (some ∅),
                        baseDeps := setKey st.baseDeps c ∅,
                        visited := insert c st.visited } := by
            have := @stInv_setKeyFresh decl
                { st with coords := eraseKey st.coords c,
                          visited := insert c st.visited } inv1 c
              (Finset.mem_insert_self _ _) hnone1 (some ∅) ∅
              (by intro x hx; simp at hx)
              (by
                intro d' hd'
                have hcontra := decl_value_unique hnd hd' hdecl
                simp at hcontra)
              (by intro hb; exact absurd hb hnb)
            exact this
          have hfuel1 : declWeight (eraseKey st.coords c) + ds.length + 1 ≤ fuel := by
            simp [Dep.children] at hwt
            omega
          have helems : ∀ e ∈ ds, e ∈ keysList decl := by
            intro e he
            exact hcl (c, Dep.multi ds) hdecl e (by simpa [Dep.children] using he)
          rcases ih.2 c ds _ inv2 hfuel1 helems (Finset.mem_insert_self _ _)
              ⟨∅, lookupKey_setKey_self _ _ _⟩ ⟨∅, lookupKey_setKey_self _ _ _⟩ with
            ⟨st2, hrec, postL⟩ | herr
          · left
            refine ⟨st2, ?_, ?_⟩
            · simp only [findCoordDependencies, if_neg hv, hpop, hrec]
            · obtain ⟨D2, B2, hD2, hB2⟩ := postL.shape
              refine ⟨postL.inv, ?_, ?_, ?_, ?_, ?_, ?_, ?_, ?_, ?_, ?_⟩
              · exact List.Sublist.trans postL.sub (eraseKey_sublist _ _)
              · intro x hx
                exact postL.visMono x (Finset.mem_insert_of_mem hx)
              · obtain ⟨t, ht⟩ := postL.leads
                have hnotkey : c ∉ keysList st.dependencies :=
                  (lookupKey_eq_none_iff _ _).mp hnone1
                refine ⟨[c] ++ t, ?_⟩
                rw [ht]
                show keysList (setKey st.dependencies c (some ∅)) ++ t
                    = keysList st.dependencies ++ ([c] ++ t)
                rw [keysList_setKey_new _ hnotkey, List.append_assoc]
              · intro k hk
                have hkc : k ≠ c := fun he => hv (he ▸ hk)
                have h1 := postL.stableD k (Finset.mem_insert_of_mem hk) hkc
                rw [h1]
                show lookupKey (setKey st.dependencies c (some ∅)) k
                    = lookupKey st.dependencies k
                rw [lookupKey_setKey_ne _ _ _ _ hkc]
              · intro k hk
                have hkc : k ≠ c := fun he => hv (he ▸ hk)
                have h1 := postL.stableB k (Finset.mem_insert_of_mem hk) hkc
                rw [h1]
                show lookupKey (setKey st.baseDeps c ∅) k = lookupKey st.baseDeps k
                rw [lookupKey_setKey_ne _ _ _ _ hkc]
              · intro k
                by_cases hk : k = c
                · subst hk
                  constructor
                  · rintro ⟨_, hn⟩
                    rw [hD2] at hn
                    simp at hn
                  · rintro ⟨hkv, _⟩
                    exact absurd hkv hv
                · refine Iff.trans (postL.ip k) ?_
                  show (k ∈ insert c st.visited ∧
                      lookupKey (setKey st.dependencies c (some ∅)) k = none) ↔ _
                  rw [lookupKey_setKey_ne _ _ _ _ hk]
                  constructor
                  · rintro ⟨hkv, hn⟩
                    exact ⟨(Finset.mem_insert.mp hkv).resolve_left hk, hn⟩
                  · rintro ⟨hkv, hn⟩
                    exact ⟨Finset.mem_insert_of_mem hkv, hn⟩
              · rw [hD2]
                rfl
              · exact postL.visMono c (Finset.mem_insert_self _ _)
              · intro _
                have h1 : st2.coords.length ≤ (eraseKey st.coords c).length :=
                  List.Sublist.length_le postL.sub
                show st2.coords.length < st.coords.length
                omega
              · exact postL.baseLeads
          · right
            simp only [findCoordDependencies, if_neg hv, hpop, herr]
    · -- findDepList (fuel+1)
      intro coord elems st inv hfuel helems hvis hD hB
      cases elems with
      | nil =>
        left
        obtain ⟨D, hDv⟩ := hD
        obtain ⟨B, hBv⟩ := hB
        exact ⟨st, rfl, ⟨inv, List.Sublist.refl _, fun x hx => hx, ⟨[], by simp⟩,
          fun k _ _ => rfl, fun k _ _ => rfl, fun k => Iff.rfl,
          ⟨D, B, hDv, hBv⟩, ⟨[], by simp⟩⟩⟩
      | cons e rest =>
        obtain ⟨D, hDv⟩ := hD
        obtain ⟨B, hBv⟩ := hB
        have hfuel1 : declWeight st.coords + 1 ≤ fuel := by
          simp at hfuel
          omega
        have heky : e ∈ keysList decl := helems e (by simp)
        rcases ih.1 e st inv hfuel1 heky with ⟨st2, hrec, post⟩ | herr
        · -- element resolved; update the open entry and continue
          have hDc2 : lookupKey st2.dependencies coord = some (some D) := by
            rw [post.stableD coord hvis]
            exact hDv
          have hBc2 : lookupKey st2.baseDeps coord = some B := by
            rw [post.stableB coord hvis]
            exact hBv
          obtain ⟨Bele, hBele⟩ := Option.isSome_iff_exists.mp
            ((post.inv.keysBD e).mp post.done)
          have hinv3 : StInv decl
              { st2 with
                dependencies := setKey st2.dependencies coord (some (insert e D)),
                baseDeps := setKey st2.baseDeps coord (B ∪ Bele) } := by
            refine stInv_setKeyExisting post.inv (by rw [hDc2]; rfl) ?_
            intro x hx
            rcases Finset.mem_union.mp hx with hx | hx
            · exact post.inv.bdVals coord B hBc2 x hx
            · exact post.inv.bdVals e Bele hBele x hx
          have hvis3 : coord ∈ st2.visited := post.visMono coord hvis
          rcases ih.2 coord rest _ hinv3
              (by
                have hsub : declWeight st2.coords ≤ declWeight st.coords :=
                  declWeight_mono post.sub
                simp at hfuel
                show declWeight st2.coords + rest.length + 1 ≤ fuel
                omega)
              (fun x hx => helems x (by simp [hx]))
              hvis3
              ⟨insert e D, lookupKey_setKey_self _ _ _⟩
              ⟨B ∪ Bele, lookupKey_setKey_self _ _ _⟩ with
            ⟨st4, hrec2, postL2⟩ | herr2
          · left
            refine ⟨st4, ?_, ?_⟩
            · simp only [findDepList, hrec, hDc2, hBc2, hBele, hrec2]
            · refine ⟨postL2.inv, ?_, ?_, ?_, ?_, ?_, ?_, postL2.shape, ?_⟩
              · exact List.Sublist.trans postL2.sub post.sub
              · intro x hx
                exact postL2.visMono x (post.visMono x hx)
              · obtain ⟨t1, ht1⟩ := post.leads
                obtain ⟨t2, ht2⟩ := postL2.leads
                have hmem2 : coord ∈ keysList st2.dependencies :=
                  (lookupKey_isSome_iff _ _).mp (by rw [hDc2]; rfl)
                refine ⟨t1 ++ t2, ?_⟩
                rw [ht2]
                show keysList (setKey st2.dependencies coord (some (insert e D))) ++ t2
                    = keysList st.dependencies ++ (t1 ++ t2)
                rw [keysList_setKey_mem _ hmem2, ht1, List.append_assoc]
              · intro k hk hkc
                have h4 := postL2.stableD k (post.visMono k hk) hkc
                rw [h4]
                show lookupKey (setKey st2.dependencies coord (some (insert e D))) k
                    = lookupKey st.dependencies k
                rw [lookupKey_setKey_ne _ _ _ _ hkc]
                exact post.stableD k hk
              · intro k hk hkc
                have h4 := postL2.stableB k (post.visMono k hk) hkc
                rw [h4]
                show lookupKey (setKey st2.baseDeps coord (B ∪ Bele)) k
                    = lookupKey st.baseDeps k
                rw [lookupKey_setKey_ne _ _ _ _ hkc]
                exact post.stableB k hk
              · intro k
                refine Iff.trans (postL2.ip k) (Iff.trans ?_ (post.ip k))
                by_cases hk : k = coord
                · subst hk
                  constructor
                  · rintro ⟨_, hn⟩
                    rw [lookupKey_setKey_self] at hn
                    simp at hn
                  · rintro ⟨hkv, hn⟩
                    rw [hDc2] at hn
                    simp at hn
                · show (k ∈ st2.visited ∧
                      lookupKey (setKey st2.dependencies coord (some (insert e D))) k
                        = none) ↔ _
                  rw [lookupKey_setKey_ne _ _ _ _ hk]
              · obtain ⟨t1, ht1⟩ := post.baseLeads
                obtain ⟨t2, ht2⟩ := postL2.baseLeads
                refine ⟨t1 ++ t2, ?_⟩
                rw [ht2]
                show st2.baseCoords ++ t2 = st.baseCoords ++ (t1 ++ t2)
                rw [ht1, List.append_assoc]
          · right
            simp only [findDepList, hrec, hDc2, hBc2, hBele, herr2]
        · right
          simp only [findDepList, herr]


/-- The `while` loop: on a well-formed declaration it either drains the
mapping completely (with the invariant intact, no entry left in progress
beyond those already in progress, and `base_coords` only extended) or
raises `GraphIsCyclicError`. -/
theorem validate_loop_G (decl : Decl) (hnd : keysNodup decl) (hcl : declClosed decl) :
    ∀ n st, StInv decl st → st.coords.length ≤ n →
      (∃ st', validateLoop n st = .ok st' ∧ StInv decl st' ∧ st'.coords = [] ∧
        (∀ x ∈ st.visited, x ∈ st'.visited) ∧
        (∀ k, (k ∈ st'.visited ∧ lookupKey st'.dependencies k = none) ↔
              (k ∈ st.visited ∧ lookupKey st.dependencies k = none)) ∧
        (∃ t, st'.baseCoords = st.baseCoords ++ t)) ∨
      validateLoop n st = .error .graphIsCyclic := by
  intro n
  induction n with
  | zero =>
    intro st inv hlen
    left
    have hnil : st.coords = [] := List.length_eq_zero.mp (Nat.le_zero.mp hlen)
    refine ⟨st, ?_, inv, hnil, fun x hx => hx, fun k => Iff.rfl, ⟨[], by simp⟩⟩
    simp [validateLoop, hnil]
  | succ n ihn =>
    intro st inv hlen
    cases hc : st.coords with
    | nil =>
      left
      refine ⟨st, ?_, inv, hc, fun x hx => hx, fun k => Iff.rfl, ⟨[], by simp⟩⟩
      simp [validateLoop, hc]
    | cons p tail =>
      obtain ⟨k0, v0⟩ := p
      have hkmem : k0 ∈ keysList st.coords := by
        rw [hc]; simp
      have hkdecl : k0 ∈ keysList decl := (inv.part k0).mpr (Or.inl hkmem)
      have hnv : k0 ∉ st.visited := inv.disj k0 hkmem
      rcases (validate_G decl hnd hcl (declWeight st.coords + 1)).1 k0 st inv
          (Nat.le_refl _) hkdecl with ⟨st', hfind, post⟩ | herr
      · have hlen' : st'.coords.length ≤ n := by
          have h1 := post.popLen hnv
          rw [hc] at h1 hlen
          simp at h1 hlen
          omega
        rw [hc] at hfind
        rcases ihn st' post.inv hlen' with ⟨st'', hloop, inv'', hnil'', hvm, hip, hbl⟩ | herr2
        · left
          refine ⟨st'', ?_, inv'', hnil'', ?_, ?_, ?_⟩
          · show validateLoop (n + 1) st = .ok st''
            unfold validateLoop
            rw [hc]
            show (match findCoordDependencies (declWeight ((k0, v0) :: tail) + 1) k0 st with
              | Except.error e => Except.error e
              | Except.ok st1 => validateLoop n st1) = _
            rw [hfind]
            exact hloop
          · intro x hx
            exact hvm x (post.visMono x hx)
          · intro k
            exact Iff.trans (hip k) (post.ip k)
          · obtain ⟨t1, ht1⟩ := post.baseLeads
            obtain ⟨t2, ht2⟩ := hbl
            exact ⟨t1 ++ t2, by rw [ht2, ht1, List.append_assoc]⟩
        · right
          unfold validateLoop
          rw [hc]
          show (match findCoordDependencies (declWeight ((k0, v0) :: tail) + 1) k0 st with
            | Except.error e => Except.error e
            | Except.ok st1 => validateLoop n st1) = _
          rw [hfind]
          exact herr2
      · right
        rw [hc] at herr
        unfold validateLoop
        rw [hc]
        show (match findCoordDependencies (declWeight ((k0, v0) :: tail) + 1) k0 st with
          | Except.error e => Except.error e
          | Except.ok st1 => validateLoop n st1) = _
        rw [herr]

/-- Outcome of `_validate_coords` on a whole well-formed declaration:
either it succeeds, the mapping is drained, every declared coordinate is
finalized and the invariant holds of the final state, or it raises
`GraphIsCyclicError`. -/
theorem validateCoordsRun_G (decl : Decl) (hnd : keysNodup decl) (hcl : declClosed decl) :
    (∃ st', validateCoordsRun decl = .ok st' ∧ StInv decl st' ∧ st'.coords = [] ∧
      (∀ c, c ∈ keysList decl ↔ c ∈ st'.visited) ∧
      (∀ k, k ∈ st'.visited → (lookupKey st'.dependencies k).isSome)) ∨
    validateCoordsRun decl = .error .graphIsCyclic := by
  rcases validate_loop_G decl hnd hcl decl.length ⟨decl, [], [], [], ∅⟩
      (stInv_initial decl) (Nat.le_refl _) with
    ⟨st', hloop, inv', hnil', _, hip, _⟩ | herr
  · left
    refine ⟨st', hloop, inv', hnil', ?_, ?_⟩
    · intro c
      rw [inv'.part c, hnil']
      simp
    · intro k hk
      cases hx : lookupKey st'.dependencies k with
      | some w => rfl
      | none =>
        have := (hip k).mp ⟨hk, hx⟩
        simp at this
  · right
    exact herr

theorem validateLoop_ok_coords_nil :
    ∀ n st st', validateLoop n st = .ok st' → st'.coords = [] := by
  intro n
  induction n with
  | zero =>
    intro st st' h
    unfold validateLoop at h
    by_cases he : st.coords.isEmpty
    · rw [if_pos he] at h
      injection h with h
      rw [← h]
      exact List.isEmpty_iff.mp he
    · rw [if_neg he] at h
      cases h
  | succ n ih =>
    intro st st' h
    unfold validateLoop at h
    cases hc : st.coords with
    | nil =>
      rw [hc] at h
      injection h with h
      rw [← h]
      exact hc
    | cons p tail =>
      obtain ⟨k0, v0⟩ := p
      rw [hc] at h
      have h2 : (match findCoordDependencies (declWeight ((k0, v0) :: tail) + 1) k0 st with
          | Except.error e => Except.error e
          | Except.ok st1 => validateLoop n st1) = Except.ok st' := h
      cases hf : findCoordDependencies (declWeight ((k0, v0) :: tail) + 1) k0 st with
      | error e =>
        rw [hf] at h2
        cases h2
      | ok st1 =>
        rw [hf] at h2
        exact ih st1 st' h2

/-- C5: for every well-formed coordinate declaration (distinct keys, all
referenced names declared) containing a two-coordinate alias cycle
`{a: 'b', b: 'a'}`, `_validate_coords` raises `GraphIsCyclicError`. -/
theorem alias_two_cycle_graphIsCyclic (decl : Decl) (hnd : keysNodup decl)
    (hcl : declClosed decl) (a b : String) (hab : a ≠ b)
    (ha : (a, Dep.single b) ∈ decl) (hb : (b, Dep.single a) ∈ decl) :
    validateCoordsMap decl = .error .graphIsCyclic := by
  have _ := hab
  rcases validateCoordsRun_G decl hnd hcl with ⟨st', hrun, inv', _, hall, hfin⟩ | herr
  · exfalso
    have haf : (lookupKey st'.dependencies a).isSome :=
      hfin a ((hall a).mp (mem_keysList_of_mem ha))
    have hbf : (lookupKey st'.dependencies b).isSome :=
      hfin b ((hall b).mp (mem_keysList_of_mem hb))
    obtain ⟨_, hlt1⟩ := inv'.aliasOrd a b ha haf
    obtain ⟨_, hlt2⟩ := inv'.aliasOrd b a hb hbf
    omega
  · unfold validateCoordsMap
    rw [herr]

theorem alias_two_cycle_graphIsCyclic_witness :
    keysNodup [("a", Dep.single "b"), ("b", Dep.single "a")] ∧
    declClosed [("a", Dep.single "b"), ("b", Dep.single "a")] ∧
    validateCoordsMap [("a", Dep.single "b"), ("b", Dep.single "a")] =
      .error .graphIsCyclic :=
  ⟨by unfold keysNodup; decide, by unfold declClosed; decide,
    alias_two_cycle_graphIsCyclic _ (by unfold keysNodup; decide)
      (by unfold declClosed; decide) "a" "b"
      (by decide) (by decide) (by decide)⟩

/-- C9: `_validate_coords` consumes its mapping input — whenever the
traversal returns normally, the caller's mapping (threaded through the
state) has been emptied by the `coords.pop(coord)` calls; a non-empty
input does not survive unchanged. -/
theorem validate_consumes_input (decl : Decl) (st : VState)
    (h : validateCoordsRun decl = .ok st) :
    st.coords = [] ∧ (decl ≠ [] → st.coords ≠ decl) := by
  have hnil := validateLoop_ok_coords_nil decl.length _ st h
  exact ⟨hnil, fun hne => by rw [hnil]; exact fun he => hne he.symm⟩

theorem validate_consumes_input_witness :
    validateCoordsRun [("a", Dep.base)] =
      .ok ⟨[], ["a"], [("a", none)], [("a", {"a"})], {"a"}⟩ ∧
    (⟨[], ["a"], [("a", none)], [("a", {"a"})], {"a"}⟩ : VState).coords = [] ∧
    ([("a", Dep.base)] : Decl) ≠ [] :=
  ⟨by decide,
    (validate_consumes_input [("a", Dep.base)] _ (by decide)).1,
    by decide⟩

/-- C2: a cyclic declaration that `build` accepts: a multi-dependency
coordinate whose dependency set contains itself pre-registers a finalized
entry, so the "not yet finalized" check never fires and validation
returns a result (with an empty base-coordinate list). -/
theorem multi_cycle_accepted :
    ¬ RankAcyclic [("a", Dep.multi ["a"])] ∧
    validateCoordsMap [("a", Dep.multi ["a"])] =
      .ok ⟨[("a", some {"a"})], [], [("a", ∅)]⟩ := by
  constructor
  · rintro ⟨r, hr⟩
    have h1 := hr ("a", Dep.multi ["a"]) (by simp) "a" (by simp [Dep.children])
    have h2 : r "a" < r "a" := h1
    omega
  · decide


/-- C3 counterexample: a declaration with all dependency specs non-null
on which `build` succeeds (returning zero base coordinates) instead of
failing with `EmptyBaseSet`, and from which a `Coordinates` object is
constructed without error. -/
theorem all_non_null_build_succeeds :
    allNonNull [("a", Dep.multi ["a"])] ∧
    validateCoordsMap [("a", Dep.multi ["a"])] =
      .ok ⟨[("a", some {"a"})], [], [("a", ∅)]⟩ ∧
    Coordinates.init [("a", Dep.multi ["a"])] =
      .ok ⟨[("a", some {"a"})], [], [("a", ∅)]⟩ := by
  refine ⟨?_, by decide, by decide⟩
  intro p hp
  simp at hp
  rw [hp]
  decide

/-- C4: `_update` merges the additions into the prior declaration map and
re-validates the merged result; when anything fails (a validation
exception or the empty-base-set assertion) the three fields are exactly
as before the call, and on success they are exactly the validated
triple of the merged declaration. -/
theorem update_atomic (self : CoordinatesObj) (coords : Decl) :
    ((self.update coords).2.isSome → (self.update coords).1 = self) ∧
    ((self.update coords).2 = none →
      ∃ r, validateCoordsMap (mergeDecl self.coordsMap coords) = .ok r ∧
        0 < r.baseCoords.length ∧
        (self.update coords).1 = ⟨r.dependencies, r.baseCoords, r.baseDeps⟩) := by
  have hu : self.update coords =
      (match validateCoordsMap (mergeDecl self.coordsMap coords) with
        | Except.error e => (self, some (UpdateErr.valErr e))
        | Except.ok r =>
          if r.baseCoords.length > 0 then
            (⟨r.dependencies, r.baseCoords, r.baseDeps⟩, none)
          else
            (self, some UpdateErr.emptyBaseSet)) := rfl
  cases hv : validateCoordsMap (mergeDecl self.coordsMap coords) with
  | error e =>
    rw [hv] at hu
    have hu2 : self.update coords = (self, some (UpdateErr.valErr e)) := hu
    constructor
    · intro _
      rw [hu2]
    · intro hn
      rw [hu2] at hn
      cases hn
  | ok r =>
    rw [hv] at hu
    have hu2 : self.update coords =
        (if r.baseCoords.length > 0 then
          ((⟨r.dependencies, r.baseCoords, r.baseDeps⟩ : CoordinatesObj), none)
        else (self, some UpdateErr.emptyBaseSet)) := hu
    by_cases hb : r.baseCoords.length > 0
    · rw [if_pos hb] at hu2
      constructor
      · intro hs
        rw [hu2] at hs
        cases hs
      · intro _
        exact ⟨r, rfl, hb, by rw [hu2]⟩
    · rw [if_neg hb] at hu2
      constructor
      · intro _
        rw [hu2]
      · intro hn
        rw [hu2] at hn
        cases hn

theorem update_atomic_witness :
    ((CoordinatesObj.update ⟨[], [], []⟩ [("a", Dep.multi ["a"])]).2.isSome = true) ∧
    (CoordinatesObj.update ⟨[], [], []⟩ [("a", Dep.multi ["a"])]).1 = ⟨[], [], []⟩ :=
  ⟨by decide,
    (update_atomic ⟨[], [], []⟩ [("a", Dep.multi ["a"])]).1 (by decide)⟩

/-- C7 evaluation: `to_xarray` never attaches the container's `attrs` on
the 1-D path and never attaches `variables` entries to column arrays;
only the 2-D dataset receives `attrs`.  The 1-D branch and the column
arrays are built by `from_series` alone, which receives no metadata. -/
theorem toXarray_metadata_not_attached :
    (∀ (s : Ser) (obj : CoordinatesObj), (s.toXarray obj).attrs = []) ∧
    (∀ (df : DF) (obj : CoordinatesObj) (attrs : List (String × String))
        (vars : List (String × List (String × String))),
      (df.toXarray obj attrs vars).attrs = attrs ∧
      (df.toXarray obj attrs vars).dataVars.map (fun p => p.2.attrs)
        = df.columns.map (fun _ => [])) := by
  refine ⟨fun s obj => rfl, fun df obj attrs vars => ⟨rfl, ?_⟩⟩
  show (df.columns.enum.map (fun p => (p.2, df.colArray obj p.1))).map
      (fun q => q.2.attrs) = df.columns.map (fun _ => [])
  rw [List.map_map]
  have hcomp : ((fun (q : String × DataArrayModel) => q.2.attrs) ∘
      (fun (p : ℕ × String) => (p.2, df.colArray obj p.1))) =
      (fun _ => ([] : List (String × String))) := rfl
  rw [hcomp, List.map_const', List.map_const', List.enum_length]


theorem firstDedupAux_of_nodup {α : Type} [DecidableEq α] :
    ∀ (l seen : List α), l.Nodup → (∀ x ∈ l, x ∉ seen) → firstDedupAux seen l = l := by
  intro l
  induction l with
  | nil => intro seen _ _; rfl
  | cons x xs ih =>
    intro seen hnd hs
    have hx : x ∉ seen := hs x (by simp)
    unfold firstDedupAux
    rw [if_neg hx]
    congr 1
    apply ih
    · exact (List.nodup_cons.mp hnd).2
    · intro y hy
      simp only [List.mem_cons]
      rintro (h | h)
      · rw [h] at hy
        exact (List.nodup_cons.mp hnd).1 hy
      · exact hs y (List.mem_cons_of_mem _ hy) h

theorem firstDedup_of_nodup {α : Type} [DecidableEq α] (l : List α) (h : l.Nodup) :
    firstDedup l = l :=
  firstDedupAux_of_nodup l [] h (by intro x _; simp)

/-- C10: the non-mapping path of `_validate_coords` (input without
`iterkeys`, e.g. a list of index level names): every entry comes back as
a base coordinate with a null dependency and base-dependency set
`{itself}`, input order preserved; this path runs no dependency
resolution and can raise no error (its type is not even fallible). -/
theorem validateCoordsList_spec (names : List String) (h : names.Nodup) :
    validateCoordsList names =
      ⟨names.map (fun c => (c, none)), names,
       names.map (fun c => (c, ({c} : Finset String)))⟩ := by
  unfold validateCoordsList
  rw [firstDedup_of_nodup names h]

theorem validateCoordsList_spec_witness :
    (["ind", "region"] : List String).Nodup ∧
    validateCoordsList ["ind", "region"] =
      ⟨[("ind", none), ("region", none)], ["ind", "region"],
       [("ind", {"ind"}), ("region", {"region"})]⟩ :=
  ⟨by decide, validateCoordsList_spec ["ind", "region"] (by decide)⟩


theorem validate_light (decl : Decl) :
    ∀ fuel : Nat,
      (∀ c st st', LInv decl st → findCoordDependencies fuel c st = .ok st' →
        LInv decl st') ∧
      (∀ coord elems st st', LInv decl st → findDepList fuel coord elems st = .ok st' →
        LInv decl st') := by
  intro fuel
  induction fuel with
  | zero =>
    constructor
    · intro c st st' _ h
      cases h
    · intro coord elems st st' hL h
      cases elems with
      | nil =>
        injection h with h
        rw [← h]
        exact hL
      | cons e rest => cases h
  | succ fuel ih =>
    constructor
    · intro c st st' hL h
      by_cases hv : c ∈ st.visited
      · by_cases hf : (lookupKey st.dependencies c).isSome = true
        · have h2 : (Except.ok st : Except VErr VState) = Except.ok st' := by
            rw [← h]
            simp only [findCoordDependencies, if_pos hv, if_pos hf]
          injection h2 with h2
          rw [← h2]
          exact hL
        · have h2 : (Except.error VErr.graphIsCyclic : Except VErr VState)
              = Except.ok st' := by
            rw [← h]
            simp only [findCoordDependencies, if_pos hv, if_neg hf]
          cases h2
      · cases hlk : lookupKey st.coords c with
        | none =>
          have hpop : popKey st.coords c = none := by
            unfold popKey
            rw [hlk]
          have h2 : (Except.error VErr.keyError : Except VErr VState)
              = Except.ok st' := by
            rw [← h]
            simp only [findCoordDependencies, if_neg hv, hpop]
          cases h2
        | some v =>
          have hpop : popKey st.coords c = some (v, eraseKey st.coords c) := by
            unfold popKey
            rw [hlk]
          have hmem : (c, v) ∈ decl :=
            List.Sublist.subset hL.1 (mem_of_lookupKey hlk)
          have hsub' : List.Sublist (eraseKey st.coords c) decl :=
            List.Sublist.trans (eraseKey_sublist _ _) hL.1
          cases v with
          | base =>
            have h2 : (Except.ok
                { st with coords := eraseKey st.coords c
                          baseCoords := st.baseCoords ++ [c]
                          dependencies := setKey st.dependencies c none
                          baseDeps := setKey st.baseDeps c {c}
                          visited := insert c st.visited } : Except VErr VState)
                = Except.ok st' := by
              rw [← h]
              simp only [findCoordDependencies, if_neg hv, hpop]
            injection h2 with h2
            rw [← h2]
            refine ⟨hsub', ?_⟩
            intro x hx
            rcases List.mem_append.mp hx with hx | hx
            · exact hL.2 x hx
            · rw [List.mem_singleton.mp hx]
              exact hmem
          | single d =>
            have h2 : (match findCoordDependencies fuel d
                { st with coords := eraseKey st.coords c,
                          visited := insert c st.visited } with
              | Except.error e => Except.error e
              | Except.ok st2 =>
                match lookupKey st2.baseDeps d with
                | none => Except.error VErr.keyError
                | some bd =>
                  Except.ok { st2 with
                    dependencies := setKey st2.dependencies c (some {d})
                    baseDeps := setKey st2.baseDeps c bd }) = Except.ok st' := by
              rw [← h]
              simp only [findCoordDependencies, if_neg hv, hpop]
            cases hrec : findCoordDependencies fuel d
                { st with coords := eraseKey st.coords c,
                          visited := insert c st.visited } with
            | error e =>
              rw [hrec] at h2
              cases h2
            | ok st2 =>
              rw [hrec] at h2
              have h3 : (match lookupKey st2.baseDeps d with
                | none => (Except.error VErr.keyError : Except VErr VState)
                | some bd =>
                  Except.ok { st2 with
                    dependencies := setKey st2.dependencies c (some {d})
                    baseDeps := setKey st2.baseDeps c bd }) = Except.ok st' := h2
              have hL2 : LInv decl st2 := ih.1 d
                { st with coords := eraseKey st.coords c,
                          visited := insert c st.visited } st2 ⟨hsub', hL.2⟩ hrec
              cases hbd : lookupKey st2.baseDeps d with
              | none =>
                rw [hbd] at h3
                cases h3
              | some bd =>
                rw [hbd] at h3
                injection h3 with h3
                rw [← h3]
                exact ⟨hL2.1, hL2.2⟩
          | multi ds =>
            have h2 : findDepList fuel c ds
                { st with coords := eraseKey st.coords c,
                          dependencies := setKey st.dependencies c (some ∅),
                          baseDeps := setKey st.baseDeps c ∅,
                          visited := insert c st.visited } = Except.ok st' := by
              rw [← h]
              simp only [findCoordDependencies, if_neg hv, hpop]
            exact ih.2 c ds
              { st with coords := eraseKey st.coords c,
                        dependencies := setKey st.dependencies c (some ∅),
                        baseDeps := setKey st.baseDeps c ∅,
                        visited := insert c st.visited } st' ⟨hsub', hL.2⟩ h2
    · intro coord elems st st' hL h
      cases elems with
      | nil =>
        injection h with h
        rw [← h]
        exact hL
      | cons e rest =>
        have h2 : (match findCoordDependencies fuel e st with
          | Except.error er => Except.error er
          | Except.ok st2 =>
            match lookupKey st2.dependencies coord, lookupKey st2.baseDeps coord,
                  lookupKey st2.baseDeps e with
            | some (some dcur), some bcur, some bele =>
              findDepList fuel coord rest
                { st2 with
                  dependencies := setKey st2.dependencies coord (some (insert e dcur))
                  baseDeps := setKey st2.baseDeps coord (bcur ∪ bele) }
            | _, _, _ => Except.error VErr.keyError) = Except.ok st' := h
        cases hrec : findCoordDependencies fuel e st with
        | error er =>
          rw [hrec] at h2
          cases h2
        | ok st2 =>
          rw [hrec] at h2
          have h3 : (match lookupKey st2.dependencies coord,
                lookupKey st2.baseDeps coord, lookupKey st2.baseDeps e with
            | some (some dcur), some bcur, some bele =>
              findDepList fuel coord rest
                { st2 with
                  dependencies := setKey st2.dependencies coord (some (insert e dcur))
                  baseDeps := setKey st2.baseDeps coord (bcur ∪ bele) }
            | _, _, _ => (Except.error VErr.keyError : Except VErr VState))
              = Except.ok st' := h2
          have hL2 : LInv decl st2 := ih.1 e st st2 hL hrec
          cases hd : lookupKey st2.dependencies coord with
          | none => rw [hd] at h3; cases h3
          | some od =>
            cases od with
            | none => rw [hd] at h3; cases h3
            | some dcur =>
              cases hb : lookupKey st2.baseDeps coord with
              | none => rw [hd, hb] at h3; cases h3
              | some bcur =>
                cases hbe : lookupKey st2.baseDeps e with
                | none => rw [hd, hb, hbe] at h3; cases h3
                | some bele =>
                  rw [hd, hb, hbe] at h3
                  exact ih.2 coord rest
                    { st2 with
                      dependencies := setKey st2.dependencies coord
                        (some (insert e dcur))
                      baseDeps := setKey st2.baseDeps coord (bcur ∪ bele) }
                    st' ⟨hL2.1, hL2.2⟩ h3

theorem validateLoop_light (decl : Decl) :
    ∀ n st st', LInv decl st → validateLoop n st = .ok st' → LInv decl st' := by
  intro n
  induction n with
  | zero =>
    intro st st' hL h
    unfold validateLoop at h
    by_cases he : st.coords.isEmpty
    · rw [if_pos he] at h
      injection h with h
      rw [← h]
      exact hL
    · rw [if_neg he] at h
      cases h
  | succ n ih =>
    intro st st' hL h
    unfold validateLoop at h
    cases hc : st.coords with
    | nil =>
      rw [hc] at h
      injection h with h
      rw [← h]
      exact hL
    | cons p tail =>
      obtain ⟨k0, v0⟩ := p
      rw [hc] at h
      have h2 : (match findCoordDependencies (declWeight ((k0, v0) :: tail) + 1) k0 st with
          | Except.error e => Except.error e
          | Except.ok st1 => validateLoop n st1) = Except.ok st' := h
      cases hf : findCoordDependencies (declWeight ((k0, v0) :: tail) + 1) k0 st with
      | error e =>
        rw [hf] at h2
        cases h2
      | ok st1 =>
        rw [hf] at h2
        exact ih st1 st' ((validate_light decl _).1 k0 st st1 hL hf) h2

/-- On any declaration at all, a successful `_validate_coords` run only
ever puts null-spec coordinates into `base_coords`. -/
theorem validateCoordsRun_baseCoords (decl : Decl) (st : VState)
    (h : validateCoordsRun decl = .ok st) :
    ∀ c ∈ st.baseCoords, (c, Dep.base) ∈ decl :=
  (validateLoop_light decl decl.length ⟨decl, [], [], [], ∅⟩ st
    ⟨List.Sublist.refl decl, by intro c hc; simp at hc⟩ h).2

/-- C3 amended: `_validate_coords` itself performs no base-set check, so
on an all-non-null declaration a successful run simply returns zero base
coordinates; only `_update` asserts a non-empty base set, so an update
whose merged declaration is all-non-null always fails (either with the
assertion — the spec's `EmptyBaseSet` — or with a validation error such
as `GraphIsCyclicError`). -/
theorem all_non_null_update_fails :
    (∀ (decl : Decl) (st : VState), allNonNull decl →
      validateCoordsRun decl = .ok st → st.baseCoords = []) ∧
    (∀ (self : CoordinatesObj) (coords : Decl),
      allNonNull (mergeDecl self.coordsMap coords) →
      (self.update coords).2.isSome) := by
  have hbase : ∀ (decl : Decl) (st : VState), allNonNull decl →
      validateCoordsRun decl = .ok st → st.baseCoords = [] := by
    intro decl st hann h
    cases hb : st.baseCoords with
    | nil => rfl
    | cons c cs =>
      exfalso
      have hc : c ∈ st.baseCoords := by rw [hb]; simp
      exact hann (c, Dep.base) (validateCoordsRun_baseCoords decl st h c hc) rfl
  refine ⟨hbase, ?_⟩
  intro self coords hann
  have hu : self.update coords =
      (match validateCoordsMap (mergeDecl self.coordsMap coords) with
        | Except.error e => (self, some (UpdateErr.valErr e))
        | Except.ok r =>
          if r.baseCoords.length > 0 then
            (⟨r.dependencies, r.baseCoords, r.baseDeps⟩, none)
          else
            (self, some UpdateErr.emptyBaseSet)) := rfl
  have hm : validateCoordsMap (mergeDecl self.coordsMap coords) =
      (match validateCoordsRun (mergeDecl self.coordsMap coords) with
        | Except.error e => Except.error e
        | Except.ok st => Except.ok (⟨st.dependencies, st.baseCoords, st.baseDeps⟩ :
            ValidationResult)) := rfl
  cases hr : validateCoordsRun (mergeDecl self.coordsMap coords) with
  | error e =>
    rw [hr] at hm
    rw [hm] at hu
    rw [hu]
    rfl
  | ok st =>
    rw [hr] at hm
    have hm2 : validateCoordsMap (mergeDecl self.coordsMap coords) =
        Except.ok (⟨st.dependencies, st.baseCoords, st.baseDeps⟩ :
          ValidationResult) := hm
    rw [hm2] at hu
    have hu2 : self.update coords =
        (if st.baseCoords.length > 0 then
          ((⟨st.dependencies, st.baseCoords, st.baseDeps⟩ : CoordinatesObj), none)
        else (self, some UpdateErr.emptyBaseSet)) := hu
    have hnil : st.baseCoords = [] := hbase _ st hann hr
    have hlen : ¬ (st.baseCoords.length > 0) := by
      rw [hnil]
      simp
    rw [if_neg hlen] at hu2
    rw [hu2]
    rfl

theorem all_non_null_update_fails_witness :
    allNonNull (mergeDecl ([] : List (String × Option (Finset String)))
      [("a", Dep.multi ["a"])]) ∧
    (CoordinatesObj.update ⟨[], [], []⟩ [("a", Dep.multi ["a"])]).2.isSome = true :=
  ⟨by decide,
    all_non_null_update_fails.2 ⟨[], [], []⟩ [("a", Dep.multi ["a"])] (by decide)⟩

theorem setKey_new_eq_append {α : Type} {l : List (String × α)} {k : String} (v : α)
    (h : k ∉ keysList l) : setKey l k v = l ++ [(k, v)] := by
  induction l with
  | nil => simp [setKey]
  | cons p rest ih =>
    have hp : p.1 ≠ k := by
      intro he
      exact h (by simp [he])
    have hr : k ∉ keysList rest := by
      intro hm
      exact h (by simp [hm])
    simp only [setKey, if_neg hp, List.cons_append]
    rw [ih hr]

theorem validateLoop_all_base :
    ∀ (n : Nat) (st : VState),
      st.coords.length ≤ n →
      (∀ p ∈ st.coords, p.2 = Dep.base) →
      (keysList st.coords).Nodup →
      (∀ c ∈ keysList st.coords, c ∉ st.visited) →
      (∀ c ∈ keysList st.coords, c ∉ keysList st.dependencies) →
      (∀ c ∈ keysList st.coords, c ∉ keysList st.baseDeps) →
      validateLoop n st = .ok
        { coords := []
          baseCoords := st.baseCoords ++ keysList st.coords
          dependencies := st.dependencies ++
            (keysList st.coords).map (fun c => (c, none))
          baseDeps := st.baseDeps ++
            (keysList st.coords).map (fun c => (c, ({c} : Finset String)))
          visited := st.visited ∪ (keysList st.coords).toFinset } := by
  intro n
  induction n with
  | zero =>
    intro st hlen _ _ _ _ _
    obtain ⟨sc, sb, sd, sbd, sv⟩ := st
    have hc : sc = [] := List.length_eq_zero.mp (Nat.le_zero.mp hlen)
    subst hc
    simp [validateLoop]
  | succ n ih =>
    intro st hlen hall hnd hvis hdep hbd
    obtain ⟨sc, sb, sd, sbd, sv⟩ := st
    cases sc with
    | nil => simp [validateLoop]
    | cons p tail =>
      obtain ⟨k, v⟩ := p
      have hv : v = Dep.base := hall (k, v) (by simp)
      subst hv
      have hknv : k ∉ sv := hvis k (by simp)
      have hpop : popKey ((k, Dep.base) :: tail) k = some (Dep.base, tail) := by
        unfold popKey
        simp [lookupKey, eraseKey]
      have hknd : k ∉ keysList sd := hdep k (by simp)
      have hknb : k ∉ keysList sbd := hbd k (by simp)
      have hfind : findCoordDependencies
          (declWeight ((k, Dep.base) :: tail) + 1) k ⟨(k, Dep.base) :: tail, sb, sd, sbd, sv⟩ =
          .ok ⟨tail, sb ++ [k], setKey sd k none, setKey sbd k {k}, insert k sv⟩ := by
        simp only [findCoordDependencies, if_neg hknv, hpop]
      have hstep : validateLoop (n + 1) ⟨(k, Dep.base) :: tail, sb, sd, sbd, sv⟩
          = validateLoop n ⟨tail, sb ++ [k], setKey sd k none, setKey sbd k {k},
              insert k sv⟩ := by
        show (match findCoordDependencies (declWeight ((k, Dep.base) :: tail) + 1) k
            ⟨(k, Dep.base) :: tail, sb, sd, sbd, sv⟩ with
          | Except.error e => Except.error e
          | Except.ok st1 => validateLoop n st1) = _
        rw [hfind]
      have htl : (keysList tail).Nodup := (List.nodup_cons.mp hnd).2
      have hkt : k ∉ keysList tail := (List.nodup_cons.mp hnd).1
      have hres := ih ⟨tail, sb ++ [k], setKey sd k none, setKey sbd k {k}, insert k sv⟩
        (by simp at hlen ⊢; omega)
        (by intro q hq; exact hall q (by simp [hq]))
        htl
        (by
          intro c hc
          simp only [Finset.mem_insert]
          rintro (h | h)
          · rw [h] at hc; exact hkt hc
          · exact hvis c (by simp [hc]) h)
        (by
          intro c hc
          rw [setKey_new_eq_append none hknd]
          show c ∉ keysList (sd ++ [(k, none)])
          unfold keysList
          rw [List.map_append]
          simp only [List.mem_append]
          rintro (h | h)
          · exact hdep c (by simp [hc]) h
          · simp at h
            rw [h] at hc
            exact hkt hc)
        (by
          intro c hc
          rw [setKey_new_eq_append ({k} : Finset String) hknb]
          show c ∉ keysList (sbd ++ [(k, {k})])
          unfold keysList
          rw [List.map_append]
          simp only [List.mem_append]
          rintro (h | h)
          · exact hbd c (by simp [hc]) h
          · simp at h
            rw [h] at hc
            exact hkt hc)
      show validateLoop (n + 1) ⟨(k, Dep.base) :: tail, sb, sd, sbd, sv⟩ = .ok
        { coords := []
          baseCoords := sb ++ keysList ((k, Dep.base) :: tail)
          dependencies := sd ++ (keysList ((k, Dep.base) :: tail)).map (fun c => (c, none))
          baseDeps := sbd ++ (keysList ((k, Dep.base) :: tail)).map
            (fun c => (c, ({c} : Finset String)))
          visited := sv ∪ (keysList ((k, Dep.base) :: tail)).toFinset }
      rw [hstep, hres]
      congr 1
      have hfields : ∀ (b1 b2 : List String)
          (d1 d2 : List (String × Option (Finset String)))
          (bd1 bd2 : List (String × Finset String)) (v1 v2 : Finset String),
          b1 = b2 → d1 = d2 → bd1 = bd2 → v1 = v2 →
          (⟨[], b1, d1, bd1, v1⟩ : VState) = ⟨[], b2, d2, bd2, v2⟩ := by
        intro b1 b2 d1 d2 bd1 bd2 v1 v2 h1 h2 h3 h4
        rw [h1, h2, h3, h4]
      apply hfields
      · simp
      · rw [setKey_new_eq_append none hknd]
        simp
      · rw [setKey_new_eq_append ({k} : Finset String) hknb]
        simp
      · ext x
        simp only [Finset.mem_union, Finset.mem_insert, keysList_cons,
          List.toFinset_cons]
        tauto

/-- C8 counterexample: a container built without `coords` over a single
unnamed index level infers the synthetic name `index_0` — not `index` and
not `level_0` (those are what `update_coords` would use on the same
index). -/
theorem initCoords_synthetic_name_family :
    Container.initCoords [none] = [("index_0", Dep.base)] ∧
    ("index_0" : String) ≠ "index" ∧ ("index_0" : String) ≠ "level_0" ∧
    Container.updateCoordsInferredNames [none] = some ["index"] := by decide

/-- C8 amended: a container built without `coords` infers its declaration
from the index level names, naming the unnamed level at position `i`
`index_<i>` (the `index`/`level_<i>` family belongs to `update_coords`,
not to the constructor); every inferred coordinate is declared as a base
coordinate, and building the graph succeeds, with every coordinate a base
coordinate of itself. -/
theorem initFromIndex_spec (names : List (Option String))
    (hnd : keysNodup (Container.initCoords names)) :
    (∀ p ∈ Container.initCoords names, p.2 = Dep.base) ∧
    keysList (Container.initCoords names) =
      names.enum.map (fun p => p.2.getD ("index_" ++ toString p.1)) ∧
    Container.initFromIndex names = .ok
      ⟨(keysList (Container.initCoords names)).map (fun c => (c, none)),
       keysList (Container.initCoords names),
       (keysList (Container.initCoords names)).map
         (fun c => (c, ({c} : Finset String)))⟩ := by
  refine ⟨?_, ?_, ?_⟩
  · intro p hp
    unfold Container.initCoords at hp
    obtain ⟨q, _, hq⟩ := List.mem_map.mp hp
    rw [← hq]
  · unfold Container.initCoords keysList
    rw [List.map_map]
    rfl
  · unfold Container.initFromIndex Coordinates.init
    have hrun : validateCoordsRun (Container.initCoords names) = .ok
        { coords := []
          baseCoords := [] ++ keysList (Container.initCoords names)
          dependencies := ([] : List (String × Option (Finset String))) ++
            (keysList (Container.initCoords names)).map (fun c => (c, none))
          baseDeps := ([] : List (String × Finset String)) ++
            (keysList (Container.initCoords names)).map
              (fun c => (c, ({c} : Finset String)))
          visited := ∅ ∪ (keysList (Container.initCoords names)).toFinset } := by
      apply validateLoop_all_base
      · exact Nat.le_refl _
      · intro p hp
        unfold Container.initCoords at hp
        obtain ⟨q, _, hq⟩ := List.mem_map.mp hp
        rw [← hq]
      · exact hnd
      · intro c _; simp
      · intro c _; simp [keysList]
      · intro c _; simp [keysList]
    have hmap : validateCoordsMap (Container.initCoords names) = .ok
        ⟨(keysList (Container.initCoords names)).map (fun c => (c, none)),
         keysList (Container.initCoords names),
         (keysList (Container.initCoords names)).map
           (fun c => (c, ({c} : Finset String)))⟩ := by
      unfold validateCoordsMap
      rw [hrun]
      rfl
    rw [hmap]

theorem initFromIndex_spec_witness :
    keysNodup (Container.initCoords [some "x", none]) ∧
    Container.initFromIndex [some "x", none] = .ok
      ⟨[("x", none), ("index_1", none)], ["x", "index_1"],
       [("x", {"x"}), ("index_1", {"index_1"})]⟩ :=
  ⟨by decide, (initFromIndex_spec [some "x", none] (by decide)).2.2⟩

theorem lookupKey_filterMap_guard {β : Type} (l : List String) (P : String → Prop)
    [DecidablePred P] (g : String → β) (coord : String) (hc : coord ∈ l)
    (hP : ¬ P coord) :
    lookupKey (l.filterMap (fun c => if P c then none else some (c, g c))) coord
      = some (g coord) := by
  induction l with
  | nil => simp at hc
  | cons x xs ih =>
    by_cases hx : P x
    · rw [List.filterMap_cons]
      have he : (if P x then none else some (x, g x)) = none := if_pos hx
      rw [he]
      rcases List.mem_cons.mp hc with h2 | h2
      · rw [h2] at hP
        exact absurd hx hP
      · exact ih h2
    · rw [List.filterMap_cons]
      have he : (if P x then none else some (x, g x)) = some (x, g x) := if_neg hx
      rw [he]
      by_cases hxc : x = coord
      · rw [hxc]
        simp [lookupKey]
      · simp only [lookupKey, if_neg hxc]
        rcases List.mem_cons.mp hc with h2 | h2
        · exact absurd h2.symm hxc
        · exact ih h2

theorem map_snd_filter_enumFrom {α : Type} (Q : α → Bool) :
    ∀ (l : List α) (n : Nat),
      ((List.enumFrom n l).filter (fun p => Q p.2)).map Prod.snd = l.filter Q := by
  intro l
  induction l with
  | nil => intro n; rfl
  | cons x xs ih =>
    intro n
    show (((n, x) :: List.enumFrom (n + 1) xs).filter (fun p => Q p.2)).map Prod.snd
        = List.filter Q (x :: xs)
    rw [List.filter_cons, List.filter_cons]
    cases hx : Q x with
    | true => simp [ih]
    | false => simp [ih]

theorem map_snd_filter_enum {α : Type} (Q : α → Bool) (l : List α) :
    ((l.enum).filter (fun p => Q p.2)).map Prod.snd = l.filter Q :=
  map_snd_filter_enumFrom Q l 0

theorem validateCoordsMap_ok_elim {decl : Decl} {res : ValidationResult}
    (h : validateCoordsMap decl = .ok res) :
    ∃ st, validateCoordsRun decl = .ok st ∧
      res = ⟨st.dependencies, st.baseCoords, st.baseDeps⟩ := by
  unfold validateCoordsMap at h
  cases hr : validateCoordsRun decl with
  | error e => rw [hr] at h; cases h
  | ok st =>
    rw [hr] at h
    injection h with h
    exact ⟨st, rfl, h.symm⟩

/-- C6: projecting a 2-D container, each derived (non-base) coordinate
yields an array of that coordinate's values indexed by exactly the index
levels in its base-dependency set (every level outside that set is reset
away); concretely, with base `ind` and derived `region` (depending on
`ind`), the `region` array is indexed solely by `ind` and has zero
missing values. -/
theorem to_xarray_derived_coord_index :
    (∀ (decl : Decl), keysNodup decl → declClosed decl →
      ∀ (res : ValidationResult), validateCoordsMap decl = .ok res →
      ∀ (df : DF) (coord : String) (bd : Finset String),
        df.indexNames = keysList res.dependencies →
        coord ∉ res.baseCoords →
        lookupKey res.baseDeps coord = some bd →
        ∃ s, lookupKey (Container.derivedCoordArrays
              ⟨res.dependencies, res.baseCoords, res.baseDeps⟩ df) coord = some s ∧
          s.indexNames = (keysList res.dependencies).filter
            (fun c => decide (c ∈ bd)) ∧
          s.indexNames.toFinset = bd ∧
          s.values = df.indexRows.map (fun row =>
            row.getD (df.indexNames.indexOf coord) "")) ∧
    (∃ s, lookupKey (Container.derivedCoordArrays
          ⟨[("ind", none), ("region", some {"ind"})], ["ind"],
           [("ind", {"ind"}), ("region", {"ind"})]⟩
          ⟨["ind", "region"], [["1", "a"], ["2", "b"], ["3", "a"]],
           ["col1"], [["10"], ["20"], ["30"]]⟩) "region" = some s ∧
       s.indexNames = ["ind"] ∧ s.missingCount = 0) := by
  constructor
  · intro decl hnd hcl res hok df coord bd hdf hnb hbd
    obtain ⟨st, hrun, hres⟩ := validateCoordsMap_ok_elim hok
    rcases validateCoordsRun_G decl hnd hcl with ⟨stG, hrun2, inv2, _, _, _⟩ | herr
    · rw [hrun] at hrun2
      injection hrun2 with hst
      subst hst
      subst hres
      have hbd' : lookupKey st.baseDeps coord = some bd := hbd
      have hnb' : coord ∉ st.baseCoords := hnb
      have hbsome : (lookupKey st.baseDeps coord).isSome := by rw [hbd']; rfl
      have coordMem : coord ∈ keysList st.dependencies :=
        (lookupKey_isSome_iff _ _).mp ((inv2.keysBD coord).mpr hbsome)
      have hlook := lookupKey_filterMap_guard (keysList st.dependencies)
        (fun c => c ∈ st.baseCoords)
        (fun c => df.resetIndexSelect ((keysList st.dependencies).filter (fun c2 =>
            match lookupKey st.baseDeps c with
            | some bdv => decide (c2 ∉ bdv)
            | none => true)) c)
        coord coordMem hnb'
      refine ⟨_, hlook, ?_, ?_, ?_⟩
      · show ((df.indexNames.enum.filter (fun p => decide (p.2 ∉
            (keysList st.dependencies).filter (fun c2 =>
              match lookupKey st.baseDeps coord with
              | some bdv => decide (c2 ∉ bdv)
              | none => true)))).map Prod.snd)
          = (keysList st.dependencies).filter (fun c => decide (c ∈ bd))
        rw [hbd']
        rw [map_snd_filter_enum (fun x => decide (x ∉
          (keysList st.dependencies).filter (fun c2 => decide (c2 ∉ bd)))) df.indexNames]
        rw [hdf]
        apply List.filter_congr
        intro x hx
        by_cases hxb : x ∈ bd
        · simp [List.mem_filter, hxb, hx]
        · simp [List.mem_filter, hxb, hx]
      · show ((df.indexNames.enum.filter (fun p => decide (p.2 ∉
            (keysList st.dependencies).filter (fun c2 =>
              match lookupKey st.baseDeps coord with
              | some bdv => decide (c2 ∉ bdv)
              | none => true)))).map Prod.snd).toFinset = bd
        rw [hbd']
        rw [map_snd_filter_enum (fun x => decide (x ∉
          (keysList st.dependencies).filter (fun c2 => decide (c2 ∉ bd)))) df.indexNames]
        rw [hdf]
        have hfeq : (keysList st.dependencies).filter (fun x => decide (x ∉
            (keysList st.dependencies).filter (fun c2 => decide (c2 ∉ bd))))
            = (keysList st.dependencies).filter (fun c => decide (c ∈ bd)) := by
          apply List.filter_congr
          intro x hx
          by_cases hxb : x ∈ bd
          · simp [List.mem_filter, hxb, hx]
          · simp [List.mem_filter, hxb, hx]
        rw [hfeq, List.toFinset_filter]
        have hsub : ∀ x ∈ bd, x ∈ keysList st.dependencies := by
          intro x hxb
          have hxbase : x ∈ st.baseCoords := inv2.bdVals coord bd hbd' x hxb
          exact (lookupKey_isSome_iff _ _).mp (inv2.baseInDeps x hxbase)
        ext x
        simp only [Finset.mem_filter, List.mem_toFinset, decide_eq_true_eq]
        constructor
        · rintro ⟨_, hxb⟩
          exact hxb
        · intro hxb
          exact ⟨hsub x hxb, hxb⟩
      · rfl
    · rw [herr] at hrun
      cases hrun
  · exact ⟨⟨["ind"], [["1"], ["2"], ["3"]], ["a", "b", "a"]⟩,
      by decide, rfl, by decide⟩

theorem to_xarray_derived_coord_index_witness :
    keysNodup [("ind", Dep.base), ("region", Dep.single "ind")] ∧
    declClosed [("ind", Dep.base), ("region", Dep.single "ind")] ∧
    (∃ s, lookupKey (Container.derivedCoordArrays
          ⟨[("ind", none), ("region", some {"ind"})], ["ind"],
           [("ind", {"ind"}), ("region", {"ind"})]⟩
          ⟨["ind", "region"], [["1", "a"], ["2", "b"], ["3", "a"]],
           ["col1"], [["10"], ["20"], ["30"]]⟩) "region" = some s ∧
       s.indexNames = (keysList [("ind", (none : Option (Finset String))),
           ("region", some {"ind"})]).filter
         (fun c => decide (c ∈ ({"ind"} : Finset String))) ∧
       s.indexNames.toFinset = ({"ind"} : Finset String) ∧
       s.values = [["1", "a"], ["2", "b"], ["3", "a"]].map (fun row =>
         row.getD (List.indexOf "region" ["ind", "region"]) "")) :=
  ⟨by decide, by decide,
    to_xarray_derived_coord_index.1
      [("ind", Dep.base), ("region", Dep.single "ind")]
      (by decide) (by decide)
      ⟨[("ind", none), ("region", some {"ind"})], ["ind"],
       [("ind", {"ind"}), ("region", {"ind"})]⟩
      (by decide)
      ⟨["ind", "region"], [["1", "a"], ["2", "b"], ["3", "a"]],
       ["col1"], [["10"], ["20"], ["30"]]⟩
      "region" {"ind"} rfl (by decide) (by decide)⟩


theorem unionBaseDeps_congr {m m' : List (String × Finset String)} {ds : List String}
    (h : ∀ e ∈ ds, lookupKey m' e = lookupKey m e) :
    ∀ acc, unionBaseDeps m' ds acc = unionBaseDeps m ds acc := by
  induction ds with
  | nil => intro acc; rfl
  | cons e rest ih =>
    intro acc
    show unionBaseDeps m' rest (acc ∪ ((lookupKey m' e).getD ∅))
        = unionBaseDeps m rest (acc ∪ ((lookupKey m e).getD ∅))
    rw [h e (by simp)]
    exact ih (fun e' he' => h e' (by simp [he'])) _

/-- Completeness of a coordinate transfers along any state change that
preserves that coordinate's own entries and the `base_deps` entries of
its declared children. -/
theorem completeAt_stable {decl : Decl} {st st' : VState} {c : String}
    (hD : lookupKey st'.dependencies c = lookupKey st.dependencies c)
    (hBc : lookupKey st'.baseDeps c = lookupKey st.baseDeps c)
    (hBch : ∀ d ∈ declChildren decl c,
      lookupKey st'.baseDeps d = lookupKey st.baseDeps d)
    (hc : CompleteAt decl st c) : CompleteAt decl st' c := by
  unfold CompleteAt at hc ⊢
  cases hdc : lookupKey decl c with
  | none => rw [hdc] at hc; exact hc
  | some v =>
    rw [hdc] at hc
    have hch : ∀ d ∈ v.children,
        lookupKey st'.baseDeps d = lookupKey st.baseDeps d := by
      intro d hd
      apply hBch
      unfold declChildren
      rw [hdc]
      exact hd
    cases v with
    | base =>
      obtain ⟨h1, h2⟩ := hc
      exact ⟨by rw [hD]; exact h1, by rw [hBc]; exact h2⟩
    | single d =>
      obtain ⟨h1, bdv, h2, h3⟩ := hc
      refine ⟨by rw [hD]; exact h1, bdv, ?_, by rw [hBc]; exact h3⟩
      rw [hch d (by simp [Dep.children])]
      exact h2
    | multi ds =>
      obtain ⟨⟨D, h1, h2⟩, h3, h4⟩ := hc
      have hes : ∀ e ∈ ds, lookupKey st'.baseDeps e = lookupKey st.baseDeps e := by
        intro e he
        exact hch e (by simpa [Dep.children] using he)
      refine ⟨⟨D, by rw [hD]; exact h1, h2⟩, ?_, ?_⟩
      · intro e he
        rw [hes e he]
        exact h3 e he
      · rw [hBc, h4, unionBaseDeps_congr hes]

theorem not_finalized_of_not_visited {decl : Decl} {st : VState} (inv : StInv decl st)
    {c : String} (hv : c ∉ st.visited) : lookupKey st.dependencies c = none := by
  cases hx : lookupKey st.dependencies c with
  | none => rfl
  | some w => exact absurd (inv.finVis c (by rw [hx]; rfl)) hv


theorem declChildren_eq {decl : Decl} {c : String} {v : Dep}
    (h : lookupKey decl c = some v) : declChildren decl c = v.children := by
  unfold declChildren
  rw [h]

/-- Acyclic completeness: with a rank function witnessing acyclicity,
`find_coord_dependencies` on a declared coordinate succeeds and leaves
that coordinate's entries complete (the local base-dependency equation
holds of them); the multi-dependency loop accumulates exactly the union
of its elements' base-dependency sets into its open coordinate. -/
theorem validate_A (decl : Decl) (hnd : keysNodup decl) (hcl : declClosed decl)
    (r : String → Nat) (hr : ∀ p ∈ decl, ∀ d ∈ p.2.children, r d < r p.1) :
    ∀ fuel : Nat,
      (∀ c st (O : Finset String), StInv decl st → declWeight st.coords + 1 ≤ fuel →
        c ∈ keysList decl →
        AllDone decl st O →
        (∀ s, s ∈ O ∨ (s ∈ st.visited ∧ lookupKey st.dependencies s = none) →
          r c < r s) →
        ∃ st', findCoordDependencies fuel c st = .ok st' ∧
          CompleteAt decl st' c ∧ AllDone decl st' O) ∧
      (∀ coord elems st (O : Finset String) (D B : Finset String),
        StInv decl st → declWeight st.coords + elems.length + 1 ≤ fuel →
        (∀ e ∈ elems, e ∈ keysList decl) →
        coord ∈ st.visited → coord ∈ O →
        lookupKey st.dependencies coord = some (some D) →
        lookupKey st.baseDeps coord = some B →
        AllDone decl st O →
        (∀ e ∈ elems, r e < r coord) →
        (∀ s, (s ∈ O ∧ s ≠ coord) ∨
            (s ∈ st.visited ∧ lookupKey st.dependencies s = none) → r coord < r s) →
        ∃ st', findDepList fuel coord elems st = .ok st' ∧
          AllDone decl st' O ∧
          (∃ Dx, lookupKey st'.dependencies coord = some (some Dx) ∧
            ∀ x, x ∈ Dx ↔ (x ∈ D ∨ x ∈ elems)) ∧
          lookupKey st'.baseDeps coord = some (unionBaseDeps st'.baseDeps elems B) ∧
          (∀ e ∈ elems, (lookupKey st'.baseDeps e).isSome)) := by
  intro fuel
  induction fuel with
  | zero =>
    constructor
    · intro c st O _ hfuel _ _ _
      omega
    · intro coord elems st O D B _ hfuel _ _ _ _ _ _ _ _
      omega
  | succ fuel ih =>
    constructor
    · -- findCoordDependencies (fuel + 1)
      intro c st O inv hfuel hckey hAD hstack
      by_cases hv : c ∈ st.visited
      · have hfs : (lookupKey st.dependencies c).isSome = true := by
          cases hx : lookupKey st.dependencies c with
          | none =>
            have := hstack c (Or.inr ⟨hv, hx⟩)
            omega
          | some w => rfl
        refine ⟨st, ?_, ?_, hAD⟩
        · simp only [findCoordDependencies, if_pos hv, if_pos hfs]
        · rcases hAD c hfs with hcO | ⟨hC, _⟩
          · have := hstack c (Or.inl hcO)
            omega
          · exact hC
      · have hckeys : c ∈ keysList st.coords := by
          rcases (inv.part c).mp hckey with h | h
          · exact h
          · exact absurd h hv
        obtain ⟨v, hlk⟩ := Option.isSome_iff_exists.mp
          ((lookupKey_isSome_iff st.coords c).mpr hckeys)
        have hpop : popKey st.coords c = some (v, eraseKey st.coords c) := by
          unfold popKey
          rw [hlk]
        obtain ⟨hdecl, hkeym, _, hlen, hwt⟩ := pop_facts inv hpop
        have hdlk : lookupKey decl c = some v := lookupKey_of_mem_nodup hnd hdecl
        have hnone : lookupKey st.dependencies c = none :=
          not_finalized_of_not_visited inv hv
        cases v with
        | base =>
          have hCc : CompleteAt decl
              { st with coords := eraseKey st.coords c
                        baseCoords := st.baseCoords ++ [c]
                        dependencies := setKey st.dependencies c none
                        baseDeps := setKey st.baseDeps c {c}
                        visited := insert c st.visited } c := by
            unfold CompleteAt
            rw [hdlk]
            constructor
            · show lookupKey (setKey st.dependencies c none) c = some none
              rw [lookupKey_setKey_self]
            · show lookupKey (setKey st.baseDeps c {c}) c = some {c}
              rw [lookupKey_setKey_self]
          refine ⟨_, ?_, hCc, ?_⟩
          · simp only [findCoordDependencies, if_neg hv, hpop]
          · intro k hk
            by_cases hkc : k = c
            · subst hkc
              right
              refine ⟨hCc, ?_⟩
              intro d hd
              rw [declChildren_eq hdlk] at hd
              simp [Dep.children] at hd
            · have hk' : (lookupKey st.dependencies k).isSome := by
                have hkk : lookupKey (setKey st.dependencies c none) k
                    = lookupKey st.dependencies k := lookupKey_setKey_ne _ _ _ _ hkc
                rw [← hkk]
                exact hk
              rcases hAD k hk' with hkO | ⟨hC, hch⟩
              · exact Or.inl hkO
              · right
                refine ⟨completeAt_stable (lookupKey_setKey_ne _ _ _ _ hkc)
                    (lookupKey_setKey_ne _ _ _ _ hkc) ?_ hC, ?_⟩
                · intro d hd
                  have hdc2 : d ≠ c := by
                    intro he
                    have := (hch d hd).2
                    rw [he, hnone] at this
                    simp at this
                  exact lookupKey_setKey_ne _ _ _ _ hdc2
                · intro d hd
                  exact ⟨(hch d hd).1,
                    lookupKey_isSome_setKey _ _ _ _ (hch d hd).2⟩
        | single d =>
          have hnb : (c, Dep.base) ∉ decl := by
            intro hb
            have hcontra := decl_value_unique hnd hb hdecl
            simp at hcontra
          have inv1 : StInv decl
              { st with coords := eraseKey st.coords c,
                        visited := insert c st.visited } :=
            stInv_popVisit hnd inv hpop hnb
          have hdkey : d ∈ keysList decl := hcl _ hdecl d (by simp [Dep.children])
          have hrd : r d < r c := hr _ hdecl d (by simp [Dep.children])
          have hdc : d ≠ c := by
            intro he
            rw [he] at hrd
            omega
          have hfuel1 : declWeight (eraseKey st.coords c) + 1 ≤ fuel := by
            simp [Dep.children] at hwt
            omega
          have hAD1 : AllDone decl
              { st with coords := eraseKey st.coords c,
                        visited := insert c st.visited } O := hAD
          have hstack1 : ∀ s, s ∈ O ∨
              (s ∈ (insert c st.visited : Finset String) ∧
                lookupKey st.dependencies s = none) → r d < r s := by
            intro s hs
            rcases hs with hs | ⟨hsv, hsn⟩
            · have := hstack s (Or.inl hs)
              omega
            · rcases Finset.mem_insert.mp hsv with he | hsv'
              · rw [he]
                exact hrd
              · have := hstack s (Or.inr ⟨hsv', hsn⟩)
                omega
          rcases (validate_G decl hnd hcl fuel).1 d
              { st with coords := eraseKey st.coords c,
                        visited := insert c st.visited } inv1 hfuel1 hdkey with
            ⟨st2g, hg, post⟩ | herr
          · obtain ⟨st2, hrec, hC2, hAD2⟩ := ih.1 d
              { st with coords := eraseKey st.coords c,
                        visited := insert c st.visited } O inv1 hfuel1 hdkey hAD1 hstack1
            rw [hrec] at hg
            injection hg with hgg
            rw [← hgg] at post
            have hnone2 : lookupKey st2.dependencies c = none :=
              ((post.ip c).mpr ⟨Finset.mem_insert_self _ _, hnone⟩).2
            obtain ⟨bdv, hbdv⟩ := Option.isSome_iff_exists.mp
              ((post.inv.keysBD d).mp post.done)
            have hCc : CompleteAt decl
                { st2 with
                  dependencies := setKey st2.dependencies c (some {d}),
                  baseDeps := setKey st2.baseDeps c bdv } c := by
              unfold CompleteAt
              rw [hdlk]
              refine ⟨?_, bdv, ?_, ?_⟩
              · show lookupKey (setKey st2.dependencies c (some {d})) c
                    = some (some {d})
                rw [lookupKey_setKey_self]
              · show lookupKey (setKey st2.baseDeps c bdv) d = some bdv
                rw [lookupKey_setKey_ne _ _ _ _ hdc]
                exact hbdv
              · show lookupKey (setKey st2.baseDeps c bdv) c = some bdv
                rw [lookupKey_setKey_self]
            refine ⟨_, ?_, hCc, ?_⟩
            · simp only [findCoordDependencies, if_neg hv, hpop, hrec, hbdv]
            · intro k hk
              by_cases hkc : k = c
              · rw [hkc]
                right
                refine ⟨hCc, ?_⟩
                intro d' hd'
                rw [declChildren_eq hdlk] at hd'
                simp only [Dep.children, List.mem_singleton] at hd'
                subst hd'
                constructor
                · intro hdo
                  have h1 := hstack d' (Or.inl hdo)
                  have h2 : r d' < r c := hrd
                  omega
                · show (lookupKey (setKey st2.dependencies c (some {d'})) d').isSome
                  rw [lookupKey_setKey_ne _ _ _ _ hdc]
                  exact post.done
              · have hk' : (lookupKey st2.dependencies k).isSome := by
                  have hkk : lookupKey (setKey st2.dependencies c (some {d})) k
                      = lookupKey st2.dependencies k := lookupKey_setKey_ne _ _ _ _ hkc
                  rw [← hkk]
                  exact hk
                rcases hAD2 k hk' with hkO | ⟨hC, hch⟩
                · exact Or.inl hkO
                · right
                  refine ⟨completeAt_stable (lookupKey_setKey_ne _ _ _ _ hkc)
                      (lookupKey_setKey_ne _ _ _ _ hkc) ?_ hC, ?_⟩
                  · intro d' hd'
                    have hd'c : d' ≠ c := by
                      intro he
                      have := (hch d' hd').2
                      rw [he, hnone2] at this
                      simp at this
                    exact lookupKey_setKey_ne _ _ _ _ hd'c
                  · intro d' hd'
                    exact ⟨(hch d' hd').1,
                      lookupKey_isSome_setKey _ _ _ _ (hch d' hd').2⟩
          · obtain ⟨st2, hrec, _, _⟩ := ih.1 d
              { st with coords := eraseKey st.coords c,
                        visited := insert c st.visited } O inv1 hfuel1 hdkey hAD1 hstack1
            rw [hrec] at herr
            cases herr
        | multi ds =>
          have hnb : (c, Dep.base) ∉ decl := by
            intro hb
            have hcontra := decl_value_unique hnd hb hdecl
            simp at hcontra
          have hnsingle : ∀ d', (c, Dep.single d') ∉ decl := by
            intro d' hd'
            have hcontra := decl_value_unique hnd hd' hdecl
            simp at hcontra
          have inv1 : StInv decl
              { st with coords := eraseKey st.coords c,
                        visited := insert c st.visited } :=
            stInv_popVisit hnd inv hpop hnb
          have inv2 : StInv decl
              { st with coords := eraseKey st.coords c,
                        dependencies := setKey st.dependencies c (some ∅),
                        baseDeps := setKey st.baseDeps c ∅,
                        visited := insert c st.visited } := by
            have := @stInv_setKeyFresh decl
                { st with coords := eraseKey st.coords c,
                          visited := insert c st.visited } inv1 c
              (Finset.mem_insert_self _ _) hnone (some ∅) ∅
              (by intro x hx; simp at hx)
              (by intro d' hd'; exact absurd hd' (hnsingle d'))
              (by intro hb; exact absurd hb hnb)
            exact this
          have hfuel1 : declWeight (eraseKey st.coords c) + ds.length + 1 ≤ fuel := by
            simp [Dep.children] at hwt
            omega
          have helems : ∀ e ∈ ds, e ∈ keysList decl := by
            intro e he
            exact hcl _ hdecl e (by simpa [Dep.children] using he)
          have hre : ∀ e ∈ ds, r e < r c := by
            intro e he
            exact hr _ hdecl e (by simpa [Dep.children] using he)
          have hAD1 : AllDone decl
              { st with coords := eraseKey st.coords c,
                        dependencies := setKey st.dependencies c (some ∅),
                        baseDeps := setKey st.baseDeps c ∅,
                        visited := insert c st.visited } (insert c O) := by
            intro k hk
            by_cases hkc : k = c
            · subst hkc
              exact Or.inl (Finset.mem_insert_self _ _)
            · have hk' : (lookupKey st.dependencies k).isSome := by
                have hkk : lookupKey (setKey st.dependencies c (some ∅)) k
                    = lookupKey st.dependencies k := lookupKey_setKey_ne _ _ _ _ hkc
                rw [← hkk]
                exact hk
              rcases hAD k hk' with hkO | ⟨hC, hch⟩
              · exact Or.inl (Finset.mem_insert_of_mem hkO)
              · right
                have hchc : ∀ d' ∈ declChildren decl k, d' ≠ c := by
                  intro d' hd' he
                  have := (hch d' hd').2
                  rw [he, hnone] at this
                  simp at this
                refine ⟨completeAt_stable (lookupKey_setKey_ne _ _ _ _ hkc)
                    (lookupKey_setKey_ne _ _ _ _ hkc)
                    (fun d' hd' => lookupKey_setKey_ne _ _ _ _ (hchc d' hd')) hC, ?_⟩
                intro d' hd'
                constructor
                · intro hdo
                  rcases Finset.mem_insert.mp hdo with he | hdo'
                  · exact hchc d' hd' he
                  · exact (hch d' hd').1 hdo'
                · exact lookupKey_isSome_setKey _ _ _ _ (hch d' hd').2
          have hstackL1 : ∀ s, (s ∈ (insert c O : Finset String) ∧ s ≠ c) ∨
              (s ∈ (insert c st.visited : Finset String) ∧
                lookupKey (setKey st.dependencies c (some ∅)) s = none) →
              r c < r s := by
            intro s hs
            rcases hs with ⟨hsO, hsc⟩ | ⟨hsv, hsn⟩
            · rcases Finset.mem_insert.mp hsO with he | hsO'
              · exact absurd he hsc
              · exact hstack s (Or.inl hsO')
            · have hsc : s ≠ c := by
                intro he
                rw [he, lookupKey_setKey_self] at hsn
                simp at hsn
              rw [lookupKey_setKey_ne _ _ _ _ hsc] at hsn
              rcases Finset.mem_insert.mp hsv with he | hsv'
              · exact absurd he hsc
              · exact hstack s (Or.inr ⟨hsv', hsn⟩)
          rcases (validate_G decl hnd hcl fuel).2 c ds
              { st with coords := eraseKey st.coords c,
                        dependencies := setKey st.dependencies c (some ∅),
                        baseDeps := setKey st.baseDeps c ∅,
                        visited := insert c st.visited } inv2 hfuel1 helems
              (Finset.mem_insert_self _ _)
              ⟨∅, lookupKey_setKey_self _ _ _⟩
              ⟨∅, lookupKey_setKey_self _ _ _⟩ with
            ⟨st2g, hg, postL⟩ | herr
          · obtain ⟨st2, hrec, hAD2, ⟨Dx, hDx, hDxm⟩, hBfold, hBsome⟩ := ih.2 c ds
              { st with coords := eraseKey st.coords c,
                        dependencies := setKey st.dependencies c (some ∅),
                        baseDeps := setKey st.baseDeps c ∅,
                        visited := insert c st.visited } (insert c O) ∅ ∅
              inv2 hfuel1 helems (Finset.mem_insert_self _ _)
              (Finset.mem_insert_self _ _)
              (lookupKey_setKey_self _ _ _) (lookupKey_setKey_self _ _ _)
              hAD1 hre hstackL1
            rw [hrec] at hg
            injection hg with hgg
            rw [← hgg] at postL
            have hCc : CompleteAt decl st2 c := by
              unfold CompleteAt
              rw [hdlk]
              refine ⟨⟨Dx, hDx, ?_⟩, hBsome, hBfold⟩
              intro x
              rw [hDxm x]
              simp
            refine ⟨st2, ?_, hCc, ?_⟩
            · simp only [findCoordDependencies, if_neg hv, hpop, hrec]
            · intro k hk
              rcases hAD2 k hk with hkO | ⟨hC, hch⟩
              · rcases Finset.mem_insert.mp hkO with he | hkO'
                · subst he
                  right
                  refine ⟨hCc, ?_⟩
                  intro e he'
                  rw [declChildren_eq hdlk] at he'
                  have he2 : e ∈ ds := by simpa [Dep.children] using he'
                  constructor
                  · intro heo
                    have h1 := hstack e (Or.inl heo)
                    have h2 := hre e he2
                    omega
                  · exact (postL.inv.keysBD e).mpr (hBsome e he2)
                · exact Or.inl hkO'
              · right
                refine ⟨hC, ?_⟩
                intro d' hd'
                exact ⟨fun ho => (hch d' hd').1 (Finset.mem_insert_of_mem ho),
                  (hch d' hd').2⟩
          · obtain ⟨st2, hrec, _, _, _, _⟩ := ih.2 c ds
              { st with coords := eraseKey st.coords c,
                        dependencies := setKey st.dependencies c (some ∅),
                        baseDeps := setKey st.baseDeps c ∅,
                        visited := insert c st.visited } (insert c O) ∅ ∅
              inv2 hfuel1 helems (Finset.mem_insert_self _ _)
              (Finset.mem_insert_self _ _)
              (lookupKey_setKey_self _ _ _) (lookupKey_setKey_self _ _ _)
              hAD1 hre hstackL1
            rw [hrec] at herr
            cases herr
    · -- findDepList (fuel + 1)
      intro coord elems st O D B inv hfuel helems hvis hcoordO hDc hBc hAD hrelems hstackL
      cases elems with
      | nil =>
        refine ⟨st, rfl, hAD, ⟨D, hDc, ?_⟩, hBc, ?_⟩
        · intro x
          simp
        · intro e he
          simp at he
      | cons e rest =>
        have hekey : e ∈ keysList decl := helems e (by simp)
        have hfuel1 : declWeight st.coords + 1 ≤ fuel := by
          simp at hfuel
          omega
        have hre : r e < r coord := hrelems e (by simp)
        have hecoord : e ≠ coord := by
          intro he'
          rw [he'] at hre
          omega
        have hstackE : ∀ s, s ∈ O ∨
            (s ∈ st.visited ∧ lookupKey st.dependencies s = none) → r e < r s := by
          intro s hs
          rcases hs with hs | hs
          · by_cases hsc : s = coord
            · rw [hsc]
              exact hre
            · have := hstackL s (Or.inl ⟨hs, hsc⟩)
              omega
          · have := hstackL s (Or.inr hs)
            omega
        rcases (validate_G decl hnd hcl fuel).1 e st inv hfuel1 hekey with
          ⟨st2g, hg, post⟩ | herr
        · obtain ⟨st2, hrec, hCe, hAD2⟩ := ih.1 e st O inv hfuel1 hekey hAD hstackE
          rw [hrec] at hg
          injection hg with hgg
          rw [← hgg] at post
          have hDc2 : lookupKey st2.dependencies coord = some (some D) := by
            rw [post.stableD coord hvis]
            exact hDc
          have hBc2 : lookupKey st2.baseDeps coord = some B := by
            rw [post.stableB coord hvis]
            exact hBc
          obtain ⟨Bele, hBele⟩ := Option.isSome_iff_exists.mp
            ((post.inv.keysBD e).mp post.done)
          have hinv3 : StInv decl
              { st2 with
                dependencies := setKey st2.dependencies coord (some (insert e D)),
                baseDeps := setKey st2.baseDeps coord (B ∪ Bele) } := by
            refine stInv_setKeyExisting post.inv (by rw [hDc2]; rfl) ?_
            intro x hx
            rcases Finset.mem_union.mp hx with hx | hx
            · exact post.inv.bdVals coord B hBc2 x hx
            · exact post.inv.bdVals e Bele hBele x hx
          have hAD3 : AllDone decl
              { st2 with
                dependencies := setKey st2.dependencies coord (some (insert e D)),
                baseDeps := setKey st2.baseDeps coord (B ∪ Bele) } O := by
            intro k hk
            by_cases hkc : k = coord
            · subst hkc
              exact Or.inl hcoordO
            · have hk' : (lookupKey st2.dependencies k).isSome := by
                have hkk : lookupKey
                    (setKey st2.dependencies coord (some (insert e D))) k
                    = lookupKey st2.dependencies k := lookupKey_setKey_ne _ _ _ _ hkc
                rw [← hkk]
                exact hk
              rcases hAD2 k hk' with hkO | ⟨hC, hch⟩
              · exact Or.inl hkO
              · right
                have hchc : ∀ d' ∈ declChildren decl k, d' ≠ coord := by
                  intro d' hd' he'
                  apply (hch d' hd').1
                  rw [he']
                  exact hcoordO
                refine ⟨completeAt_stable (lookupKey_setKey_ne _ _ _ _ hkc)
                    (lookupKey_setKey_ne _ _ _ _ hkc)
                    (fun d' hd' => lookupKey_setKey_ne _ _ _ _ (hchc d' hd')) hC, ?_⟩
                intro d' hd'
                exact ⟨(hch d' hd').1,
                  lookupKey_isSome_setKey _ _ _ _ (hch d' hd').2⟩
          have hvis3 : coord ∈ st2.visited := post.visMono coord hvis
          have hstackL3 : ∀ s, (s ∈ O ∧ s ≠ coord) ∨
              (s ∈ st2.visited ∧ lookupKey
                (setKey st2.dependencies coord (some (insert e D))) s = none) →
              r coord < r s := by
            intro s hs
            rcases hs with hs | ⟨hsv, hsn⟩
            · exact hstackL s (Or.inl hs)
            · have hsc : s ≠ coord := by
                intro he'
                rw [he', lookupKey_setKey_self] at hsn
                simp at hsn
              rw [lookupKey_setKey_ne _ _ _ _ hsc] at hsn
              have hip := (post.ip s).mp ⟨hsv, hsn⟩
              exact hstackL s (Or.inr hip)
          rcases (validate_G decl hnd hcl fuel).2 coord rest
              { st2 with
                dependencies := setKey st2.dependencies coord (some (insert e D)),
                baseDeps := setKey st2.baseDeps coord (B ∪ Bele) } hinv3
              (by
                have hsub : declWeight st2.coords ≤ declWeight st.coords :=
                  declWeight_mono post.sub
                simp at hfuel
                show declWeight st2.coords + rest.length + 1 ≤ fuel
                omega)
              (fun x hx => helems x (by simp [hx]))
              hvis3
              ⟨insert e D, lookupKey_setKey_self _ _ _⟩
              ⟨B ∪ Bele, lookupKey_setKey_self _ _ _⟩ with
            ⟨st4g, hg2, postL2⟩ | herr2
          · obtain ⟨st4, hrec2, hAD4, ⟨Dx, hDx, hDxm⟩, hBfold, hBsome⟩ := ih.2 coord rest
              { st2 with
                dependencies := setKey st2.dependencies coord (some (insert e D)),
                baseDeps := setKey st2.baseDeps coord (B ∪ Bele) } O
              (insert e D) (B ∪ Bele) hinv3
              (by
                have hsub : declWeight st2.coords ≤ declWeight st.coords :=
                  declWeight_mono post.sub
                simp at hfuel
                show declWeight st2.coords + rest.length + 1 ≤ fuel
                omega)
              (fun x hx => helems x (by simp [hx]))
              hvis3 hcoordO
              (lookupKey_setKey_self _ _ _) (lookupKey_setKey_self _ _ _)
              hAD3 (fun x hx => hrelems x (by simp [hx])) hstackL3
            rw [hrec2] at hg2
            injection hg2 with hgg2
            rw [← hgg2] at postL2
            have hbe4 : lookupKey st4.baseDeps e = some Bele := by
              have h1 : lookupKey (setKey st2.baseDeps coord (B ∪ Bele)) e
                  = some Bele := by
                rw [lookupKey_setKey_ne _ _ _ _ hecoord]
                exact hBele
              have h2 := postL2.stableB e (post.doneVis) hecoord
              rw [h2]
              exact h1
            refine ⟨st4, ?_, hAD4, ⟨Dx, hDx, ?_⟩, ?_, ?_⟩
            · simp only [findDepList, hrec, hDc2, hBc2, hBele, hrec2]
            · intro x
              rw [hDxm x]
              simp only [Finset.mem_insert, List.mem_cons]
              tauto
            · show lookupKey st4.baseDeps coord
                  = some (unionBaseDeps st4.baseDeps (e :: rest) B)
              have hfold : unionBaseDeps st4.baseDeps (e :: rest) B
                  = unionBaseDeps st4.baseDeps rest
                      (B ∪ ((lookupKey st4.baseDeps e).getD ∅)) := rfl
              rw [hfold, hbe4]
              exact hBfold
            · intro e' he'
              rcases List.mem_cons.mp he' with he2 | he2
              · rw [he2, hbe4]
                rfl
              · exact hBsome e' he2
          · obtain ⟨st4, hrec2, _, _, _, _⟩ := ih.2 coord rest
              { st2 with
                dependencies := setKey st2.dependencies coord (some (insert e D)),
                baseDeps := setKey st2.baseDeps coord (B ∪ Bele) } O
              (insert e D) (B ∪ Bele) hinv3
              (by
                have hsub : declWeight st2.coords ≤ declWeight st.coords :=
                  declWeight_mono post.sub
                simp at hfuel
                show declWeight st2.coords + rest.length + 1 ≤ fuel
                omega)
              (fun x hx => helems x (by simp [hx]))
              hvis3 hcoordO
              (lookupKey_setKey_self _ _ _) (lookupKey_setKey_self _ _ _)
              hAD3 (fun x hx => hrelems x (by simp [hx])) hstackL3
            rw [hrec2] at herr2
            cases herr2
        · obtain ⟨st2, hrec, _, _⟩ := ih.1 e st O inv hfuel1 hekey hAD hstackE
          rw [hrec] at herr
          cases herr

/-- Driving-loop analogue of `validate_A`: under an acyclicity rank, the
loop runs to completion keeping every finalized coordinate complete. -/
theorem validate_loop_A (decl : Decl) (hnd : keysNodup decl) (hcl : declClosed decl)
    (r : String → Nat) (hr : ∀ p ∈ decl, ∀ d ∈ p.2.children, r d < r p.1) :
    ∀ n st, StInv decl st → st.coords.length ≤ n →
      AllDone decl st ∅ →
      (∀ s, ¬(s ∈ st.visited ∧ lookupKey st.dependencies s = none)) →
      ∃ st', validateLoop n st = .ok st' ∧ AllDone decl st' ∅ := by
  intro n
  induction n with
  | zero =>
    intro st inv hlen hAD hIP
    have hnil : st.coords = [] := List.length_eq_zero.mp (Nat.le_zero.mp hlen)
    exact ⟨st, by simp [validateLoop, hnil], hAD⟩
  | succ n ihn =>
    intro st inv hlen hAD hIP
    cases hc : st.coords with
    | nil => exact ⟨st, by simp [validateLoop, hc], hAD⟩
    | cons p tail =>
      obtain ⟨k0, v0⟩ := p
      have hkmem : k0 ∈ keysList st.coords := by
        rw [hc]
        simp
      have hkdecl : k0 ∈ keysList decl := (inv.part k0).mpr (Or.inl hkmem)
      obtain ⟨st1, hfind, hC1, hAD1⟩ :=
        (validate_A decl hnd hcl r hr (declWeight st.coords + 1)).1
          k0 st ∅ inv (Nat.le_refl _) hkdecl hAD
          (by
            intro s hs
            rcases hs with hs | hs
            · exact absurd hs (Finset.not_mem_empty s)
            · exact absurd hs (hIP s))
      rcases (validate_G decl hnd hcl (declWeight st.coords + 1)).1 k0 st inv
          (Nat.le_refl _) hkdecl with ⟨stg, hg, post⟩ | herr
      · rw [hfind] at hg
        injection hg with hgg
        rw [← hgg] at post
        have hnv : k0 ∉ st.visited := inv.disj k0 hkmem
        have hlen1 : st1.coords.length ≤ n := by
          have h1 := post.popLen hnv
          rw [hc] at h1 hlen
          simp at h1 hlen
          omega
        have hIP1 : ∀ s, ¬(s ∈ st1.visited ∧ lookupKey st1.dependencies s = none) := by
          intro s hs
          exact hIP s ((post.ip s).mp hs)
        obtain ⟨st2, hloop, hAD2⟩ := ihn st1 post.inv hlen1 hAD1 hIP1
        refine ⟨st2, ?_, hAD2⟩
        rw [hc] at hfind
        show validateLoop (n + 1) st = .ok st2
        unfold validateLoop
        rw [hc]
        show (match findCoordDependencies (declWeight ((k0, v0) :: tail) + 1) k0 st with
          | Except.error e => Except.error e
          | Except.ok stx => validateLoop n stx) = _
        rw [hfind]
        exact hloop
      · rw [hfind] at herr
        cases herr

/-- C1: for every well-formed acyclic coordinate declaration with at
least one base coordinate, `_validate_coords` succeeds, the returned
base-coordinate list is nonempty, and the returned maps satisfy the
claimed equations at every declared coordinate: a base coordinate's
base-dependency set is `{self}`, an alias copies its dependency's set,
and a multi-dependency coordinate holds the union of its direct
dependencies' sets. -/
theorem acyclic_build_base_dependency_union (decl : Decl)
    (hnd : keysNodup decl) (hcl : declClosed decl) (hacyc : RankAcyclic decl)
    (hbase : ∃ c, (c, Dep.base) ∈ decl) :
    ∃ res, validateCoordsMap decl = .ok res ∧ res.baseCoords ≠ [] ∧
      ∀ c ∈ keysList decl,
        CompleteAt decl ⟨[], res.baseCoords, res.dependencies, res.baseDeps, ∅⟩ c := by
  obtain ⟨r, hr⟩ := hacyc
  obtain ⟨st1, hloop, hAD1⟩ :=
    validate_loop_A decl hnd hcl r hr decl.length ⟨decl, [], [], [], ∅⟩
      (stInv_initial decl) (Nat.le_refl _)
      (by
        intro k hk
        have h0 : lookupKey ([] : List (String × Option (Finset String))) k = none := rfl
        rw [h0] at hk
        simp at hk)
      (by
        intro s hs
        have h2 : s ∈ (∅ : Finset String) := hs.1
        simp at h2)
  have h1 : validateCoordsRun decl = .ok st1 := hloop
  rcases validateCoordsRun_G decl hnd hcl with
    ⟨st2, hrun, inv2, hnil2, hpartv, hfin⟩ | herr
  · have hrun2 := hrun
    rw [h1] at hrun2
    injection hrun2 with heq
    subst heq
    refine ⟨⟨st1.dependencies, st1.baseCoords, st1.baseDeps⟩, ?_, ?_, ?_⟩
    · unfold validateCoordsMap
      rw [hrun]
    · obtain ⟨c0, hc0⟩ := hbase
      have hck : c0 ∈ keysList decl := mem_keysList_of_mem hc0
      have hcv : c0 ∈ st1.visited := (hpartv c0).mp hck
      have hcb : c0 ∈ st1.baseCoords := inv2.baseVisited c0 hc0 hcv
      intro hnil
      have hnil3 : st1.baseCoords = [] := hnil
      rw [hnil3] at hcb
      simp at hcb
    · intro c hck
      have hcv : c ∈ st1.visited := (hpartv c).mp hck
      have hcf : (lookupKey st1.dependencies c).isSome := hfin c hcv
      rcases hAD1 c hcf with h | ⟨hC, _⟩
      · exact absurd h (Finset.not_mem_empty c)
      · exact hC
  · rw [h1] at herr
    cases herr


theorem acyclic_build_base_dependency_union_witness :
    keysNodup declC1 ∧ declClosed declC1 ∧ RankAcyclic declC1 ∧
      (∃ c, (c, Dep.base) ∈ declC1) ∧
      (∃ res, validateCoordsMap declC1 = .ok res ∧ res.baseCoords ≠ [] ∧
        ∀ c ∈ keysList declC1,
          CompleteAt declC1 ⟨[], res.baseCoords, res.dependencies, res.baseDeps, ∅⟩ c) :=
  ⟨by unfold keysNodup declC1; decide,
   by unfold declClosed declC1; decide,
   ⟨rankC1, by unfold declC1 rankC1; decide⟩,
   ⟨"ind", by unfold declC1; decide⟩,
   acyclic_build_base_dependency_union declC1
     (by unfold keysNodup declC1; decide)
     (by unfold declClosed declC1; decide)
     ⟨rankC1, by unfold declC1 rankC1; decide⟩
     ⟨"ind", by unfold declC1; decide⟩⟩
